import Mathlib

/-! SimpleVector (`simple_vector.h`)

A shallow embedding of the class template `SimpleVector<Type>` and a
verification of its documented behaviour.

Modelling conventions.

* The element type `Type` is a Lean type `α`; where the source writes `Type{}`
  the type carries `[Inhabited α]` and `default` stands for `Type{}`.
* What a freshly allocated block holds is not fixed by the sources: it is the
  parameter `FreshBlock α`, and every general theorem holds for all of its
  values.
* `size_t` is `Nat`; every arithmetic operation the source performs on a
  `size_t` (`size_ * 2`, `capacity_ * 2`, `size_ + 1`) is reduced modulo
  `2 ^ 64`.
* A heap block is the list of its cells; its length is the number of cells
  that were allocated.  The counters `size_` and `capacity_` are separate
  fields, exactly as in the class, so a state whose recorded capacity differs
  from the allocation can be expressed.
* Every operation that touches the block returns `Except Fault _`.
  `Fault.out_of_bounds` is an access outside the allocated block (undefined
  behaviour in C++), `Fault.assertion` a failed `assert`, and
  `Fault.out_of_range` the exception thrown by `At`.
* An iterator is represented by its offset from `begin()`.
* Moving an element is modelled as copying it: the moved-from value only ever
  stays in a slot past `size_` or in a temporary that is destroyed.
* Allocation itself is assumed to succeed.
* A read-only range `[begin(), end())` handed to `std::equal` or
  `std::lexicographical_compare` is the sequence of elements it denotes.
* Two distinct `ArrayPtr` objects hold the same pointer only when both are null,
  and a block of 0 cells is the null pointer.
-/

/-- Number of distinct values of a 64-bit `size_t`. -/
def SIZE_T_RANGE : Nat := 18446744073709551616

/-- Ways in which a call can fail to return normally. -/
inductive Fault where
  | out_of_range
  | assertion
  | out_of_bounds
  deriving DecidableEq, Repr

deriving instance DecidableEq for Except

/-- Modelled from the spec: `array_ptr.h` (the class `ArrayPtr`) is included by
`simple_vector.h` but is not among the sources.  The spec describes it as the
exclusive owner of one contiguous allocation of a fixed number of elements,
with unchecked indexed access, `Get()` and `swap`.  The block is the list of
its cells. -/
abbrev ArrayPtr (α : Type) := List α

/-- Modelled from the spec: what the constructor `ArrayPtr(size)` of the missing
`array_ptr.h` leaves in the cells of the block it allocates.  The spec says the
buffer "default/value-initializes nothing on its own" (only an element type
with a non-trivial default constructor is default-constructed at this layer),
and no line of `simple_vector.h` stores into a fresh block before using it.  So
the content is a parameter: `cells size` is any sequence of `size` elements. -/
class FreshBlock (α : Type) where
  cells : Nat → List α
  length_cells : ∀ size : Nat, (cells size).length = size

/-- Modelled from the spec: the constructor `ArrayPtr(size)` of the missing
`array_ptr.h`.  It allocates `size` cells and stores nothing into them. -/
def ArrayPtr.alloc {α : Type} [FreshBlock α] (size : Nat) : ArrayPtr α :=
  FreshBlock.cells size

/-- Fresh blocks of `int` that happen to be zeroed; the closed examples over `Int`
run with these. -/
instance zeroed_blocks : FreshBlock Int where
  cells := fun size => List.replicate size 0
  length_cells := fun size => List.length_replicate size 0

/-- Fresh blocks of `int` that hold stale values 900, 901, 902, ...: one possible
content of uninitialised cells. -/
def stale_blocks : FreshBlock Int where
  cells := fun size => List.map (fun k : Nat => 900 + Int.ofNat k) (List.range size)
  length_cells := fun size => by rw [List.length_map, List.length_range]

/-- The element loop of `std::copy` between two distinct blocks:
`count` times `*d++ = *first++`. -/
def copy_loop {α : Type} (src : List α) : Nat → Nat → List α → Nat → List α
  | 0, _, dst, _ => dst
  | n + 1, first, dst, d =>
    match src[first]? with
    | some x => copy_loop src n (first + 1) (dst.set d x) (d + 1)
    | none => dst

/-- The call `std::copy(src + first, src + last, dst + d)` where `src` and `dst`
are different blocks.  Reading or writing outside a block is a fault. -/
def std_copy {α : Type} (src : List α) (first last : Nat) (dst : List α) (d : Nat) :
    Except Fault (List α) :=
  if first ≤ last ∧ last ≤ src.length ∧ d + (last - first) ≤ dst.length then
    .ok (copy_loop src (last - first) first dst d)
  else
    .error Fault.out_of_bounds

/-- The element loop of `std::copy` inside one block: `count` times
`*d++ = *first++`, every read seeing the writes made before it. -/
def copy_within_loop {α : Type} : Nat → Nat → Nat → List α → List α
  | 0, _, _, buf => buf
  | n + 1, first, d, buf =>
    match buf[first]? with
    | some x => copy_within_loop n (first + 1) (d + 1) (buf.set d x)
    | none => buf

/-- The call `std::copy(p + first, p + last, p + d)` with source and destination
in the same block `buf`. -/
def std_copy_within {α : Type} (buf : List α) (first last d : Nat) : Except Fault (List α) :=
  if first ≤ last ∧ last ≤ buf.length ∧ d + (last - first) ≤ buf.length then
    .ok (copy_within_loop (last - first) first d buf)
  else
    .error Fault.out_of_bounds

/-- The element loop of `std::copy_backward` inside one block: `count` times
`*(--d_last) = *(--last)`. -/
def copy_backward_loop {α : Type} : Nat → Nat → Nat → List α → List α
  | 0, _, _, buf => buf
  | n + 1, last, d_last, buf =>
    match buf[last - 1]? with
    | some x => copy_backward_loop n (last - 1) (d_last - 1) (buf.set (d_last - 1) x)
    | none => buf

/-- The call `std::copy_backward(p + first, p + last, p + d_last)` with source and
destination in the same block `buf`. -/
def std_copy_backward {α : Type} (buf : List α) (first last d_last : Nat) :
    Except Fault (List α) :=
  if first ≤ last ∧ last ≤ buf.length ∧ last - first ≤ d_last ∧ d_last ≤ buf.length then
    .ok (copy_backward_loop (last - first) last d_last buf)
  else
    .error Fault.out_of_bounds

/-- The element loop of `std::fill`: `count` times `*first++ = value`. -/
def fill_loop {α : Type} : Nat → Nat → α → List α → List α
  | 0, _, _, buf => buf
  | n + 1, first, value, buf => fill_loop n (first + 1) value (buf.set first value)

/-- The call `std::fill(p + first, p + last, value)` on the block `buf`. -/
def std_fill {α : Type} (buf : List α) (first last : Nat) (value : α) : Except Fault (List α) :=
  if first ≤ last ∧ last ≤ buf.length then
    .ok (fill_loop (last - first) first value buf)
  else
    .error Fault.out_of_bounds

/-- Unchecked write `raw[index] = value` through `ArrayPtr::operator[]`. -/
def ArrayPtr.store {α : Type} (raw : ArrayPtr α) (index : Nat) (value : α) :
    Except Fault (ArrayPtr α) :=
  if index < raw.length then .ok (raw.set index value) else .error Fault.out_of_bounds

/-- Unchecked read `raw[index]` through `ArrayPtr::operator[]`. -/
def ArrayPtr.load {α : Type} (raw : ArrayPtr α) (index : Nat) : Except Fault α :=
  match raw[index]? with
  | some x => .ok x
  | none => .error Fault.out_of_bounds

/-- Modelled from the spec: move assignment of the missing `ArrayPtr`
("transfers ownership, leaves source pointer null").  The pair is
(destination, source) after `dst = std::move(src)`. -/
def ArrayPtr.move_assign {α : Type} (src : ArrayPtr α) : ArrayPtr α × ArrayPtr α :=
  (src, [])

/-- Modelled from the spec: the comparison `p.Get() == q.Get()` for two distinct
`ArrayPtr` objects.  Ownership of an allocation is exclusive and a block of 0
cells "yields no allocation" (null pointer), so the pointers of two distinct
owners are equal exactly when both are null. -/
def ArrayPtr.Get_eq {α : Type} (p q : ArrayPtr α) : Bool :=
  p.isEmpty && q.isEmpty

/-- The element loop of the four-iterator `std::equal` once the two distances have
been found equal: `for (; first1 != last1; ++first1, ++first2)` return false at
the first pair with `!(*first1 == *first2)`, and true at the end.  The two
ranges are given as the sequences of elements they denote. -/
def equal_loop {α : Type} [DecidableEq α] : List α → List α → Bool
  | [], _ => true
  | _ :: _, [] => false
  | x :: xs, y :: ys => if x = y then equal_loop xs ys else false

/-- The call `std::equal(p + 0, p + n1, q + 0, q + n2)` on random-access ranges: the
distances are compared first, then the elements. -/
def std_equal {α : Type} [DecidableEq α] (buf1 : List α) (n1 : Nat) (buf2 : List α) (n2 : Nat) :
    Except Fault Bool :=
  if n1 ≤ buf1.length ∧ n2 ≤ buf2.length then
    if n1 ≠ n2 then .ok false
    else .ok (equal_loop (buf1.take n1) (buf2.take n2))
  else
    .error Fault.out_of_bounds

/-- The loop of `std::lexicographical_compare`:
`for (; first1 != last1 && first2 != last2; ++first1, ++first2)`
`{ if (*first1 < *first2) return true; if (*first2 < *first1) return false; }`
`return first1 == last1 && first2 != last2;`.  The two ranges are given as the
sequences of elements they denote. -/
def lexicographical_compare_loop {α : Type} [LT α] [DecidableRel (fun a b : α => a < b)] :
    List α → List α → Bool
  | [], [] => false
  | [], _ :: _ => true
  | _ :: _, [] => false
  | x :: xs, y :: ys =>
    if x < y then true
    else if y < x then false
    else lexicographical_compare_loop xs ys

/-- The call `std::lexicographical_compare(p + 0, p + n1, q + 0, q + n2)`. -/
def std_lexicographical_compare {α : Type} [LT α] [DecidableRel (fun a b : α => a < b)]
    (buf1 : List α) (n1 : Nat) (buf2 : List α) (n2 : Nat) : Except Fault Bool :=
  if n1 ≤ buf1.length ∧ n2 ≤ buf2.length then
    .ok (lexicographical_compare_loop (buf1.take n1) (buf2.take n2))
  else
    .error Fault.out_of_bounds

/-- The struct `ReserveProxyObj`. -/
structure ReserveProxyObj where
  capacity_to_reserve_ : Nat
  deriving DecidableEq, Repr

/-- The free function `ReserveProxyObj Reserve(size_t capacity_to_reserve)`. -/
def Reserve (capacity_to_reserve : Nat) : ReserveProxyObj :=
  { capacity_to_reserve_ := capacity_to_reserve }

/-- The data members of `SimpleVector<Type>`. -/
structure SimpleVector (α : Type) where
  raw_vector_ : ArrayPtr α
  size_ : Nat
  capacity_ : Nat
  deriving DecidableEq, Repr

namespace SimpleVector

variable {α : Type}

/-- The default constructor `SimpleVector() noexcept = default`: null storage, both
counters 0. -/
def ctor_default : SimpleVector α :=
  { raw_vector_ := [], size_ := 0, capacity_ := 0 }

/-- The constructor `explicit SimpleVector(size_t size)`: a fresh block of `size`
cells is swapped into `raw_vector_`, and both counters are set to `size`. -/
def ctor_size [FreshBlock α] (size : Nat) : SimpleVector α :=
  { raw_vector_ := ArrayPtr.alloc size, size_ := size, capacity_ := size }

/-- The member `void swap(SimpleVector& other)`: the pair is (this, other) after the
call. -/
def swap (self other : SimpleVector α) : SimpleVector α × SimpleVector α :=
  (other, self)

/-- The member `size_t GetSize() const`. -/
def GetSize (v : SimpleVector α) : Nat := v.size_

/-- The member `size_t GetCapacity() const`. -/
def GetCapacity (v : SimpleVector α) : Nat := v.capacity_

/-- Reading through `operator[]`: `assert(index < size_)`, then `raw_vector_[index]`. -/
def subscript (v : SimpleVector α) (index : Nat) : Except Fault α :=
  if index < v.size_ then v.raw_vector_.load index else .error Fault.assertion

/-- Writing through `operator[]` (`v[index] = value`). -/
def subscript_assign (v : SimpleVector α) (index : Nat) (value : α) :
    Except Fault (SimpleVector α) :=
  if index < v.size_ then
    match v.raw_vector_.store index value with
    | .ok raw => .ok { v with raw_vector_ := raw }
    | .error e => .error e
  else .error Fault.assertion

/-- The member `Type& At(size_t index)`: the vector after the call, and the outcome
(the element referred to, or the fault). -/
def At (v : SimpleVector α) (index : Nat) : SimpleVector α × Except Fault α :=
  if index ≥ v.size_ then (v, .error Fault.out_of_range)
  else (v, v.raw_vector_.load index)

/-- The member `void Resize(size_t new_size)`. -/
def Resize [Inhabited α] [FreshBlock α] (v : SimpleVector α) (new_size : Nat) : Except Fault (SimpleVector α) :=
  if new_size ≤ v.capacity_ then
    if new_size ≤ v.size_ then
      .ok { v with size_ := new_size }
    else
      match std_fill v.raw_vector_ v.size_ new_size default with
      | .ok raw => .ok { v with raw_vector_ := raw, size_ := new_size }
      | .error e => .error e
  else
    let temp : SimpleVector α := ctor_size (max (v.capacity_ * 2 % SIZE_T_RANGE) new_size)
    match std_copy v.raw_vector_ 0 v.size_ temp.raw_vector_ 0 with
    | .ok raw => .ok (swap v { temp with raw_vector_ := raw }).1
    | .error e => .error e

/-- The member `void Reserve(size_t new_capacity)`. -/
def Reserve [FreshBlock α] (v : SimpleVector α) (new_capacity : Nat) :
    Except Fault (SimpleVector α) :=
  if new_capacity > v.capacity_ then
    let temp : SimpleVector α := ctor_size new_capacity
    match std_copy v.raw_vector_ 0 v.size_ temp.raw_vector_ 0 with
    | .ok raw => .ok (swap v { temp with raw_vector_ := raw, size_ := v.size_ }).1
    | .error e => .error e
  else
    .ok v

/-- The constructor `SimpleVector(ReserveProxyObj obj)`: the members take their default
initialisers and the body calls `Reserve(obj.capacity_to_reserve_)`.  Inside
the class the unqualified name `Reserve` is found in class scope first, so the
call is to the member function `SimpleVector::Reserve`. -/
def ctor_reserve [FreshBlock α] (obj : ReserveProxyObj) : Except Fault (SimpleVector α) :=
  SimpleVector.Reserve ctor_default obj.capacity_to_reserve_

/-- The member `void PushBack(Type item)`. -/
def PushBack [FreshBlock α] (v : SimpleVector α) (item : α) : Except Fault (SimpleVector α) :=
  if v.size_ < v.capacity_ then
    match v.raw_vector_.store v.size_ item with
    | .ok raw => .ok { v with raw_vector_ := raw, size_ := (v.size_ + 1) % SIZE_T_RANGE }
    | .error e => .error e
  else
    let temp : SimpleVector α := ctor_size (max (v.size_ * 2 % SIZE_T_RANGE) 1)
    let temp : SimpleVector α := { temp with size_ := (v.size_ + 1) % SIZE_T_RANGE }
    match std_copy v.raw_vector_ 0 v.size_ temp.raw_vector_ 0 with
    | .ok raw =>
      match subscript_assign { temp with raw_vector_ := raw } v.size_ item with
      | .ok temp => .ok (swap v temp).1
      | .error e => .error e
    | .error e => .error e

/-- The member `Iterator Insert(ConstIterator pos, Type value)` with `pos == begin() + index`.
The result is the vector after the call and the offset of the returned iterator
from its `begin()`. -/
def Insert [FreshBlock α] (v : SimpleVector α) (index : Nat) (value : α) :
    Except Fault (SimpleVector α × Nat) :=
  if index ≤ v.size_ then
    if v.size_ < v.capacity_ then
      match std_copy_backward v.raw_vector_ index v.size_ (v.size_ + 1) with
      | .ok raw =>
        match ArrayPtr.store raw index value with
        | .ok raw => .ok ({ v with raw_vector_ := raw, size_ := (v.size_ + 1) % SIZE_T_RANGE }, index)
        | .error e => .error e
      | .error e => .error e
    else
      let temp : SimpleVector α := ctor_size (max (v.size_ * 2 % SIZE_T_RANGE) 1)
      let temp : SimpleVector α := { temp with size_ := (v.size_ + 1) % SIZE_T_RANGE }
      match std_copy v.raw_vector_ 0 index temp.raw_vector_ 0 with
      | .ok raw =>
        match subscript_assign { temp with raw_vector_ := raw } index value with
        | .ok temp =>
          match std_copy v.raw_vector_ index v.size_ temp.raw_vector_ (index + 1) with
          | .ok raw => .ok ((swap v { temp with raw_vector_ := raw }).1, index)
          | .error e => .error e
        | .error e => .error e
      | .error e => .error e
  else
    .error Fault.assertion

/-- The member `Iterator Erase(ConstIterator pos)` with `pos == begin() + index`.
The result is the vector after the call and the offset of the returned iterator
from `begin()`. -/
def Erase (v : SimpleVector α) (index : Nat) : Except Fault (SimpleVector α × Nat) :=
  if index < v.size_ then
    match std_copy_within v.raw_vector_ (index + 1) v.size_ index with
    | .ok raw => .ok ({ v with raw_vector_ := raw, size_ := v.size_ - 1 }, index)
    | .error e => .error e
  else
    .error Fault.assertion

/-- The constructor `SimpleVector(size_t size, Type value)`. -/
def ctor_fill [FreshBlock α] (size : Nat) (value : α) : Except Fault (SimpleVector α) :=
  let array_copy : ArrayPtr α := ArrayPtr.alloc size
  match std_fill array_copy 0 size value with
  | .ok raw => .ok { raw_vector_ := raw, size_ := size, capacity_ := size }
  | .error e => .error e

/-- The constructor `SimpleVector(std::initializer_list<Type> init)`; the elements
of an initializer list are const, so the move iterators copy. -/
def ctor_init [FreshBlock α] (init : List α) : Except Fault (SimpleVector α) :=
  let array_copy : ArrayPtr α := ArrayPtr.alloc init.length
  match std_copy init 0 init.length array_copy 0 with
  | .ok raw => .ok { raw_vector_ := raw, size_ := init.length, capacity_ := init.length }
  | .error e => .error e

/-- The copy constructor `SimpleVector(const SimpleVector& other)`: the temporary
is built with `other.size_` cells, receives the elements, then has its two
counters overwritten with those of `other`, and is swapped into the
default-initialised members. -/
def ctor_copy [FreshBlock α] (other : SimpleVector α) : Except Fault (SimpleVector α) :=
  let temp : SimpleVector α := ctor_size other.size_
  match std_copy other.raw_vector_ 0 other.size_ temp.raw_vector_ 0 with
  | .ok raw =>
    .ok (swap ctor_default
      { raw_vector_ := raw, size_ := other.size_, capacity_ := other.capacity_ }).1
  | .error e => .error e

/-- The move constructor `SimpleVector(SimpleVector&& other)`.  The pair is (the new
object, `other` after the call). -/
def ctor_move (other : SimpleVector α) : SimpleVector α × SimpleVector α :=
  let moved := ArrayPtr.move_assign other.raw_vector_
  let size_ := other.size_
  let capacity_ := size_
  ({ raw_vector_ := moved.1, size_ := size_, capacity_ := capacity_ },
   { raw_vector_ := moved.2, size_ := 0, capacity_ := 0 })

/-- The body of `SimpleVector& operator=(SimpleVector rhs)`, given the parameter
object `rhs`. -/
def operator_assign [FreshBlock α] (self rhs : SimpleVector α) : Except Fault (SimpleVector α) :=
  if ArrayPtr.Get_eq self.raw_vector_ rhs.raw_vector_ = false then
    let array_copy : ArrayPtr α := ArrayPtr.alloc rhs.size_
    match std_copy rhs.raw_vector_ 0 rhs.size_ array_copy 0 with
    | .ok raw => .ok { raw_vector_ := raw, size_ := rhs.size_, capacity_ := rhs.size_ }
    | .error e => .error e
  else
    .ok self

/-- The statement `a = b;` with an lvalue `b`: the parameter of `operator=` is
copy-constructed from `b` (taken by const reference, so `b` is not written),
then the body runs.  The pair is (`a`, `b`) after the statement. -/
def assign_copy [FreshBlock α] (a b : SimpleVector α) :
    Except Fault (SimpleVector α × SimpleVector α) :=
  match ctor_copy b with
  | .ok rhs =>
    match operator_assign a rhs with
    | .ok a1 => .ok (a1, b)
    | .error e => .error e
  | .error e => .error e

/-- The statement `a = std::move(b);`: the parameter of `operator=` is
move-constructed from `b`, then the body runs.  The pair is (`a`, `b`) after
the statement. -/
def assign_move [FreshBlock α] (a b : SimpleVector α) :
    Except Fault (SimpleVector α × SimpleVector α) :=
  match operator_assign a (ctor_move b).1 with
  | .ok a1 => .ok (a1, (ctor_move b).2)
  | .error e => .error e

/-- The member `bool IsEmpty() const`. -/
def IsEmpty (v : SimpleVector α) : Bool := v.size_ == 0

/-- The member `void Clear() noexcept`. -/
def Clear (v : SimpleVector α) : SimpleVector α :=
  { v with size_ := 0 }

/-- The member `void PopBack() noexcept`: `assert(!IsEmpty())`, then `--size_`. -/
def PopBack (v : SimpleVector α) : Except Fault (SimpleVector α) :=
  if IsEmpty v = false then .ok { v with size_ := v.size_ - 1 }
  else .error Fault.assertion

/-- The free `operator==`. -/
def operator_eq [DecidableEq α] (lhs rhs : SimpleVector α) : Except Fault Bool :=
  std_equal lhs.raw_vector_ lhs.size_ rhs.raw_vector_ rhs.size_

/-- The free `operator!=`: `!(lhs == rhs)`. -/
def operator_ne [DecidableEq α] (lhs rhs : SimpleVector α) : Except Fault Bool :=
  (operator_eq lhs rhs).map not

/-- The free `operator<`. -/
def operator_lt [LT α] [DecidableRel (fun a b : α => a < b)] (lhs rhs : SimpleVector α) :
    Except Fault Bool :=
  std_lexicographical_compare lhs.raw_vector_ lhs.size_ rhs.raw_vector_ rhs.size_

/-- The free `operator<=`: `!(rhs < lhs)`. -/
def operator_le [LT α] [DecidableRel (fun a b : α => a < b)] (lhs rhs : SimpleVector α) :
    Except Fault Bool :=
  (operator_lt rhs lhs).map not

/-- The free `operator>`: `(rhs < lhs)`. -/
def operator_gt [LT α] [DecidableRel (fun a b : α => a < b)] (lhs rhs : SimpleVector α) :
    Except Fault Bool :=
  operator_lt rhs lhs

/-- The free `operator>=`: `!(lhs < rhs)`. -/
def operator_ge [LT α] [DecidableRel (fun a b : α => a < b)] (lhs rhs : SimpleVector α) :
    Except Fault Bool :=
  (operator_lt lhs rhs).map not

/-- The client sequence `v.PushBack(x_1); ...; v.PushBack(x_n);`. -/
def PushBack_seq [FreshBlock α] (v : SimpleVector α) : List α → Except Fault (SimpleVector α)
  | [] => .ok v
  | x :: xs =>
    match PushBack v x with
    | .ok w => PushBack_seq w xs
    | .error e => .error e

/-- The representation invariant of the class: the logical size is within the
recorded capacity, and the recorded capacity is within the allocated block. -/
def Valid (v : SimpleVector α) : Prop :=
  v.size_ ≤ v.capacity_ ∧ v.capacity_ ≤ v.raw_vector_.length

instance (v : SimpleVector α) : Decidable (Valid v) := by
  unfold Valid; infer_instance

/-- The predicate `size <= capacity` on the two counters. -/
def SizeWithinCapacity (v : SimpleVector α) : Prop := GetSize v ≤ GetCapacity v

instance (v : SimpleVector α) : Decidable (SizeWithinCapacity v) := by
  unfold SizeWithinCapacity; infer_instance

/-- The element sequence of the range `[begin(), end())`. -/
def contents (v : SimpleVector α) : List α := v.raw_vector_.take v.size_

/-- The vector `{1, 2}` with capacity 2 (full). -/
def sample_full : SimpleVector Int := { raw_vector_ := [1, 2], size_ := 2, capacity_ := 2 }

/-- The vector `{1, 2}` with capacity 4; the two spare slots hold stale values. -/
def sample_room : SimpleVector Int :=
  { raw_vector_ := [1, 2, 7, 9], size_ := 2, capacity_ := 4 }

/-- The vector `{1, 2, 3}` with capacity 3 (full). -/
def sample_123_full : SimpleVector Int :=
  { raw_vector_ := [1, 2, 3], size_ := 3, capacity_ := 3 }

/-- The states a client can reach through the public interface: the result of any
constructor, and the result of any mutating operation that returns normally
(asserts hold, no access outside a block) applied to reachable vectors. -/
inductive Reachable [Inhabited α] [FreshBlock α] : SimpleVector α → Prop where
  | by_default : Reachable ctor_default
  | by_size (n : Nat) : Reachable (ctor_size n)
  | by_fill (n : Nat) (x : α) (w : SimpleVector α) : ctor_fill n x = .ok w → Reachable w
  | by_init (xs : List α) (w : SimpleVector α) : ctor_init xs = .ok w → Reachable w
  | by_reserve (obj : ReserveProxyObj) (w : SimpleVector α) :
      ctor_reserve obj = .ok w → Reachable w
  | by_copy (a w : SimpleVector α) : Reachable a → ctor_copy a = .ok w → Reachable w
  | by_move (a : SimpleVector α) : Reachable a → Reachable (ctor_move a).1
  | moved_from (a : SimpleVector α) : Reachable a → Reachable (ctor_move a).2
  | assign_copy_left (a b : SimpleVector α) (p : SimpleVector α × SimpleVector α) :
      Reachable a → Reachable b → assign_copy a b = .ok p → Reachable p.1
  | assign_move_left (a b : SimpleVector α) (p : SimpleVector α × SimpleVector α) :
      Reachable a → Reachable b → assign_move a b = .ok p → Reachable p.1
  | assign_move_right (a b : SimpleVector α) (p : SimpleVector α × SimpleVector α) :
      Reachable a → Reachable b → assign_move a b = .ok p → Reachable p.2
  | swap_left (a b : SimpleVector α) : Reachable a → Reachable b → Reachable (swap a b).1
  | swap_right (a b : SimpleVector α) : Reachable a → Reachable b → Reachable (swap a b).2
  | clear (a : SimpleVector α) : Reachable a → Reachable (Clear a)
  | resize (a : SimpleVector α) (n : Nat) (w : SimpleVector α) :
      Reachable a → Resize a n = .ok w → Reachable w
  | reserve (a : SimpleVector α) (n : Nat) (w : SimpleVector α) :
      Reachable a → Reserve a n = .ok w → Reachable w
  | push_back (a : SimpleVector α) (x : α) (w : SimpleVector α) :
      Reachable a → PushBack a x = .ok w → Reachable w
  | pop_back (a w : SimpleVector α) : Reachable a → PopBack a = .ok w → Reachable w
  | insert (a : SimpleVector α) (i : Nat) (x : α) (w : SimpleVector α) (j : Nat) :
      Reachable a → Insert a i x = .ok (w, j) → Reachable w
  | erase (a : SimpleVector α) (i : Nat) (w : SimpleVector α) (j : Nat) :
      Reachable a → Erase a i = .ok (w, j) → Reachable w

/-- Lexicographic order on element sequences, in the words of the specification:
`xs` is less than `ys` when `xs` is a proper prefix of `ys`, or when at the first
index where they differ the element of `xs` is the smaller one. -/
def lex_less [LT α] (xs ys : List α) : Prop :=
  (xs.length < ys.length ∧ ∀ i : Nat, i < xs.length → xs[i]? = ys[i]?) ∨
  (∃ (k : Nat) (x y : α),
    xs[k]? = some x ∧ ys[k]? = some y ∧ x < y ∧ ∀ j : Nat, j < k → xs[j]? = ys[j]?)

/-- The vector `{1, 2, 3}` with capacity 4, as left by three `PushBack` calls. -/
def sample_123_room : SimpleVector Int :=
  { raw_vector_ := [1, 2, 3, 0], size_ := 3, capacity_ := 4 }

/-- The copy that the copy constructor builds from `{1, 2, 3}` of capacity 4: a block
of 3 cells, size 3, recorded capacity 4. -/
def sample_123_copy : SimpleVector Int :=
  { raw_vector_ := [1, 2, 3], size_ := 3, capacity_ := 4 }

/-- The vector `{1, 3}` with capacity 2. -/
def sample_13 : SimpleVector Int := { raw_vector_ := [1, 3], size_ := 2, capacity_ := 2 }

/-- The vector `{1, 2, 9}` with capacity 3. -/
def sample_129 : SimpleVector Int :=
  { raw_vector_ := [1, 2, 9], size_ := 3, capacity_ := 3 }

/-- The vector `{1, 0, 2, 3}` with capacity 4. -/
def sample_1023 : SimpleVector Int :=
  { raw_vector_ := [1, 0, 2, 3], size_ := 4, capacity_ := 4 }

/-- The vector `{0, 2, 3}` with capacity 4, as left by erasing the first element
of `{1, 0, 2, 3}`. -/
def sample_023 : SimpleVector Int :=
  { raw_vector_ := [0, 2, 3, 3], size_ := 3, capacity_ := 4 }

end SimpleVector

/-! ## Element loops of the standard algorithms -/

@[simp] theorem ArrayPtr.length_alloc {α : Type} [FreshBlock α] (size : Nat) :
    (ArrayPtr.alloc size : ArrayPtr α).length = size :=
  FreshBlock.length_cells size


variable {α : Type}

theorem copy_loop_length (src : List α) (n first : Nat) (dst : List α) (d : Nat) :
    (copy_loop src n first dst d).length = dst.length := by
  induction n generalizing first dst d with
  | zero => rfl
  | succ n ih =>
    unfold copy_loop
    cases h : src[first]? with
    | none => rfl
    | some x => simp [ih]

theorem copy_loop_get (src : List α) (n first : Nat) (dst : List α) (d : Nat)
    (hs : first + n ≤ src.length) (hd : d + n ≤ dst.length) (i : Nat) :
    (copy_loop src n first dst d)[i]? =
      if d ≤ i ∧ i < d + n then src[first + (i - d)]? else dst[i]? := by
  induction n generalizing first dst d with
  | zero =>
    have : ¬ (d ≤ i ∧ i < d + 0) := by omega
    rw [if_neg this]
    rfl
  | succ n ih =>
    have hlt : first < src.length := by omega
    unfold copy_loop
    rw [List.getElem?_eq_getElem hlt]
    simp only
    rw [ih (first + 1) (dst.set d src[first]) (d + 1) (by omega) (by simp; omega)]
    by_cases h1 : d + 1 ≤ i ∧ i < d + 1 + n
    · have h2 : d ≤ i ∧ i < d + (n + 1) := by omega
      have h3 : first + 1 + (i - (d + 1)) = first + (i - d) := by omega
      rw [if_pos h1, if_pos h2, h3]
    · rw [if_neg h1]
      by_cases h4 : i = d
      · subst h4
        have h2 : i ≤ i ∧ i < i + (n + 1) := by omega
        rw [if_pos h2, List.getElem?_set_self (by omega)]
        simp [List.getElem?_eq_getElem hlt]
      · have h2 : ¬ (d ≤ i ∧ i < d + (n + 1)) := by omega
        rw [if_neg h2, List.getElem?_set_ne (by omega)]

theorem copy_within_loop_length (n first d : Nat) (buf : List α) :
    (copy_within_loop n first d buf).length = buf.length := by
  induction n generalizing first d buf with
  | zero => rfl
  | succ n ih =>
    unfold copy_within_loop
    cases h : buf[first]? with
    | none => rfl
    | some x => simp [ih]

theorem copy_within_loop_get (n first d : Nat) (buf : List α)
    (hs : first + n ≤ buf.length) (hd : d ≤ first) (i : Nat) :
    (copy_within_loop n first d buf)[i]? =
      if d ≤ i ∧ i < d + n then buf[first + (i - d)]? else buf[i]? := by
  induction n generalizing first d buf with
  | zero =>
    have : ¬ (d ≤ i ∧ i < d + 0) := by omega
    rw [if_neg this]
    rfl
  | succ n ih =>
    have hlt : first < buf.length := by omega
    unfold copy_within_loop
    rw [List.getElem?_eq_getElem hlt]
    simp only
    rw [ih (first + 1) (d + 1) (buf.set d buf[first]) (by simp; omega) (by omega)]
    by_cases h1 : d + 1 ≤ i ∧ i < d + 1 + n
    · have h2 : d ≤ i ∧ i < d + (n + 1) := by omega
      have h3 : first + 1 + (i - (d + 1)) = first + (i - d) := by omega
      rw [if_pos h1, if_pos h2, h3, List.getElem?_set_ne (by omega)]
    · rw [if_neg h1]
      by_cases h4 : i = d
      · subst h4
        have h2 : i ≤ i ∧ i < i + (n + 1) := by omega
        rw [if_pos h2, List.getElem?_set_self (by omega)]
        simp [List.getElem?_eq_getElem hlt]
      · have h2 : ¬ (d ≤ i ∧ i < d + (n + 1)) := by omega
        rw [if_neg h2, List.getElem?_set_ne (by omega)]

theorem copy_backward_loop_length (n last d_last : Nat) (buf : List α) :
    (copy_backward_loop n last d_last buf).length = buf.length := by
  induction n generalizing last d_last buf with
  | zero => rfl
  | succ n ih =>
    unfold copy_backward_loop
    cases h : buf[last - 1]? with
    | none => rfl
    | some x => simp [ih]

theorem copy_backward_loop_get (n last d_last : Nat) (buf : List α)
    (hn : n ≤ last) (hl : last ≤ d_last) (hd : d_last ≤ buf.length) (i : Nat) :
    (copy_backward_loop n last d_last buf)[i]? =
      if d_last - n ≤ i ∧ i < d_last then buf[last - (d_last - i)]? else buf[i]? := by
  induction n generalizing last d_last buf with
  | zero =>
    have : ¬ (d_last - 0 ≤ i ∧ i < d_last) := by omega
    rw [if_neg this]
    rfl
  | succ n ih =>
    have hlt : last - 1 < buf.length := by omega
    unfold copy_backward_loop
    rw [List.getElem?_eq_getElem hlt]
    simp only
    rw [ih (last - 1) (d_last - 1) (buf.set (d_last - 1) buf[last - 1]) (by omega) (by omega)
      (by simp; omega)]
    by_cases h1 : d_last - 1 - n ≤ i ∧ i < d_last - 1
    · have h2 : d_last - (n + 1) ≤ i ∧ i < d_last := by omega
      have h3 : last - 1 - (d_last - 1 - i) = last - (d_last - i) := by omega
      rw [if_pos h1, if_pos h2, h3, List.getElem?_set_ne (by omega)]
    · rw [if_neg h1]
      by_cases h4 : i = d_last - 1
      · subst h4
        have h2 : d_last - (n + 1) ≤ d_last - 1 ∧ d_last - 1 < d_last := by omega
        have h3 : last - (d_last - (d_last - 1)) = last - 1 := by omega
        rw [if_pos h2, List.getElem?_set_self (by omega), h3]
        simp [List.getElem?_eq_getElem hlt]
      · have h2 : ¬ (d_last - (n + 1) ≤ i ∧ i < d_last) := by omega
        rw [if_neg h2, List.getElem?_set_ne (by omega)]

theorem fill_loop_length (n first : Nat) (value : α) (buf : List α) :
    (fill_loop n first value buf).length = buf.length := by
  induction n generalizing first buf with
  | zero => rfl
  | succ n ih => simp [fill_loop, ih]

theorem fill_loop_get (n first : Nat) (value : α) (buf : List α)
    (hb : first + n ≤ buf.length) (i : Nat) :
    (fill_loop n first value buf)[i]? =
      if first ≤ i ∧ i < first + n then some value else buf[i]? := by
  induction n generalizing first buf with
  | zero =>
    have : ¬ (first ≤ i ∧ i < first + 0) := by omega
    rw [if_neg this]
    rfl
  | succ n ih =>
    unfold fill_loop
    rw [ih (first + 1) (buf.set first value) (by simp; omega)]
    by_cases h1 : first + 1 ≤ i ∧ i < first + 1 + n
    · have h2 : first ≤ i ∧ i < first + (n + 1) := by omega
      rw [if_pos h1, if_pos h2]
    · rw [if_neg h1]
      by_cases h4 : i = first
      · subst h4
        have h2 : i ≤ i ∧ i < i + (n + 1) := by omega
        rw [if_pos h2, List.getElem?_set_self (by omega)]
      · have h2 : ¬ (first ≤ i ∧ i < first + (n + 1)) := by omega
        rw [if_neg h2, List.getElem?_set_ne (by omega)]



/-! ## The calls made by the member functions, and the member functions -/

namespace SimpleVector

variable {α : Type}

theorem std_copy_ok (src : List α) (first last : Nat) (dst : List α) (d : Nat)
    (h1 : first ≤ last) (h2 : last ≤ src.length) (h3 : d + (last - first) ≤ dst.length) :
    std_copy src first last dst d = .ok (copy_loop src (last - first) first dst d) := by
  simp [std_copy, h1, h2, h3]

theorem contents_length (v : SimpleVector α) (hv : Valid v) :
    (contents v).length = v.size_ := by
  unfold contents Valid at *
  simp
  omega

theorem contents_get (v : SimpleVector α) (i : Nat) :
    (contents v)[i]? = if i < v.size_ then v.raw_vector_[i]? else none := by
  unfold contents
  rw [List.getElem?_take]

theorem subscript_eq (v : SimpleVector α) (i : Nat) (x : α)
    (hi : i < v.size_) (hx : (contents v)[i]? = some x) : subscript v i = .ok x := by
  rw [contents_get, if_pos hi] at hx
  simp [subscript, hi, ArrayPtr.load, hx]

theorem store_ok (raw : ArrayPtr α) (i : Nat) (x : α) (h : i < raw.length) :
    ArrayPtr.store raw i x = .ok (raw.set i x) := by
  simp [ArrayPtr.store, h]

theorem subscript_assign_ok (v : SimpleVector α) (i : Nat) (x : α) (h1 : i < v.size_)
    (h2 : i < v.raw_vector_.length) :
    subscript_assign v i x = .ok { v with raw_vector_ := v.raw_vector_.set i x } := by
  simp [subscript_assign, h1, store_ok _ _ _ h2]

theorem PushBack_ok [FreshBlock α] (v : SimpleVector α) (x : α) (hv : Valid v)
    (hs : 2 * v.size_ < SIZE_T_RANGE) :
    ∃ w, PushBack v x = .ok w ∧ Valid w ∧ w.size_ = v.size_ + 1 ∧
      w.capacity_ = (if v.size_ < v.capacity_ then v.capacity_ else max (2 * v.size_) 1) ∧
      contents w = contents v ++ [x] := by
  obtain ⟨h1, h2⟩ := hv
  have hmod : (v.size_ + 1) % SIZE_T_RANGE = v.size_ + 1 := by
    unfold SIZE_T_RANGE at *; omega
  have hmod2 : v.size_ * 2 % SIZE_T_RANGE = 2 * v.size_ := by
    unfold SIZE_T_RANGE at *; omega
  by_cases hc : v.size_ < v.capacity_
  · have hlen : v.size_ < v.raw_vector_.length := by omega
    refine ⟨{ v with raw_vector_ := v.raw_vector_.set v.size_ x, size_ := v.size_ + 1 }, ?_, ?_, rfl, ?_, ?_⟩
    · simp [PushBack, hc, ArrayPtr.store, hlen, hmod]
    · constructor
      · show v.size_ + 1 ≤ v.capacity_
        omega
      · show v.capacity_ ≤ (v.raw_vector_.set v.size_ x).length
        simp; omega
    · simp [hc]
    · apply List.ext_getElem?
      intro i
      rw [contents_get, List.getElem?_append, contents_get]
      have hcl : (contents v).length = v.size_ := contents_length v ⟨h1, h2⟩
      rw [hcl]
      show (if i < v.size_ + 1 then (v.raw_vector_.set v.size_ x)[i]? else none) = _
      by_cases hi : i < v.size_
      · simp [hi, List.getElem?_set_ne (show v.size_ ≠ i by omega)]
        omega
      · by_cases hi2 : i = v.size_
        · subst hi2
          simp [List.getElem?_set_self hlen]
        · have : ¬ (i < v.size_ + 1) := by omega
          simp [hi, this]
          omega
  · have heq : v.size_ = v.capacity_ := by omega
    have hM : v.size_ + 1 ≤ max (2 * v.size_) 1 := by omega
    have hcopy : std_copy v.raw_vector_ 0 v.size_
        (ArrayPtr.alloc (max (2 * v.size_) 1)) 0
          = .ok (copy_loop v.raw_vector_ v.size_ 0
              (ArrayPtr.alloc (max (2 * v.size_) 1)) 0) := by
      rw [std_copy_ok _ _ _ _ _ (Nat.zero_le _) (by omega) (by simp; omega)]
      simp
    refine ⟨{ raw_vector_ := (copy_loop v.raw_vector_ v.size_ 0
                (ArrayPtr.alloc (max (2 * v.size_) 1)) 0).set v.size_ x,
              size_ := v.size_ + 1, capacity_ := max (2 * v.size_) 1 }, ?_, ?_, rfl, ?_, ?_⟩
    · simp only [PushBack, if_neg hc, ctor_size, hmod, hmod2, hcopy]
      rw [subscript_assign_ok _ _ _ (by show v.size_ < v.size_ + 1; omega)
        (by simp only [copy_loop_length, ArrayPtr.length_alloc]; omega)]
      rfl
    · constructor
      · exact hM
      · simp [copy_loop_length]
    · simp [hc]
    · apply List.ext_getElem?
      intro i
      rw [contents_get, List.getElem?_append, contents_get]
      have hcl : (contents v).length = v.size_ := contents_length v ⟨h1, h2⟩
      rw [hcl]
      show (if i < v.size_ + 1 then ((copy_loop v.raw_vector_ v.size_ 0
                (ArrayPtr.alloc (max (2 * v.size_) 1)) 0).set v.size_ x)[i]? else none) = _
      by_cases hi : i < v.size_
      · rw [if_pos (by omega), if_pos hi, if_pos hi, List.getElem?_set_ne (by omega),
          copy_loop_get _ _ _ _ _ (by omega) (by simp; omega), if_pos (by omega)]
        simp
      · by_cases hi2 : i = v.size_
        · subst hi2
          rw [if_pos (by omega), if_neg hi, List.getElem?_set_self (by simp [copy_loop_length]; omega)]
          simp
        · rw [if_neg (by omega), if_neg hi]
          simp
          omega

theorem std_copy_backward_ok (buf : List α) (first last d_last : Nat)
    (h1 : first ≤ last) (h2 : last ≤ buf.length) (h3 : last - first ≤ d_last)
    (h4 : d_last ≤ buf.length) :
    std_copy_backward buf first last d_last
      = .ok (copy_backward_loop (last - first) last d_last buf) := by
  simp [std_copy_backward, h1, h2, h3, h4]

theorem std_copy_within_ok (buf : List α) (first last d : Nat)
    (h1 : first ≤ last) (h2 : last ≤ buf.length) (h3 : d + (last - first) ≤ buf.length) :
    std_copy_within buf first last d = .ok (copy_within_loop (last - first) first d buf) := by
  simp [std_copy_within, h1, h2, h3]

theorem insert_get (l : List α) (i : Nat) (x : α) (hi : i ≤ l.length) (j : Nat) :
    (l.take i ++ x :: l.drop i)[j]? =
      if j < i then l[j]? else if j = i then some x else l[j - 1]? := by
  rw [List.getElem?_append]
  have hl : (l.take i).length = i := by simp; omega
  rw [hl]
  by_cases h1 : j < i
  · rw [if_pos h1, if_pos h1, List.getElem?_take, if_pos h1]
  · rw [if_neg h1, if_neg h1, List.getElem?_cons]
    by_cases h2 : j = i
    · have : j - i = 0 := by omega
      rw [if_pos this, if_pos h2]
    · have : ¬ (j - i = 0) := by omega
      rw [if_neg this, if_neg h2, List.getElem?_drop]
      congr 1
      omega

theorem Insert_ok [FreshBlock α] (v : SimpleVector α) (i : Nat) (x : α) (hv : Valid v)
    (hs : 2 * v.size_ < SIZE_T_RANGE) (hi : i ≤ v.size_) :
    ∃ w, Insert v i x = .ok (w, i) ∧ Valid w ∧ w.size_ = v.size_ + 1 ∧
      w.capacity_ = (if v.size_ < v.capacity_ then v.capacity_ else max (2 * v.size_) 1) ∧
      contents w = (contents v).take i ++ x :: (contents v).drop i := by
  have hcl : (contents v).length = v.size_ := contents_length v hv
  obtain ⟨h1, h2⟩ := hv
  have hmod : (v.size_ + 1) % SIZE_T_RANGE = v.size_ + 1 := by
    unfold SIZE_T_RANGE at *; omega
  have hmod2 : v.size_ * 2 % SIZE_T_RANGE = 2 * v.size_ := by
    unfold SIZE_T_RANGE at *; omega
  by_cases hc : v.size_ < v.capacity_
  · have hlen : v.size_ < v.raw_vector_.length := by omega
    refine ⟨{ raw_vector_ :=
                (copy_backward_loop (v.size_ - i) v.size_ (v.size_ + 1) v.raw_vector_).set i x,
              size_ := v.size_ + 1, capacity_ := v.capacity_ }, ?_, ?_, rfl, ?_, ?_⟩
    · simp only [Insert, if_pos hi, if_pos hc, hmod]
      rw [std_copy_backward_ok _ _ _ _ hi (by omega) (by omega) (by omega)]
      simp only
      rw [store_ok _ _ _ (by rw [copy_backward_loop_length]; omega)]
    · constructor
      · show v.size_ + 1 ≤ v.capacity_
        omega
      · show v.capacity_ ≤ ((copy_backward_loop (v.size_ - i) v.size_ (v.size_ + 1)
            v.raw_vector_).set i x).length
        rw [List.length_set, copy_backward_loop_length]
        exact h2
    · rw [if_pos hc]
    · apply List.ext_getElem?
      intro j
      rw [insert_get _ _ _ (by omega), contents_get, contents_get,
        contents_get]
      show (if j < v.size_ + 1 then ((copy_backward_loop (v.size_ - i) v.size_ (v.size_ + 1)
            v.raw_vector_).set i x)[j]? else none) = _
      by_cases hj : j < i
      · rw [if_pos (by omega), if_pos hj, if_pos (by omega), List.getElem?_set_ne (by omega),
          copy_backward_loop_get _ _ _ _ (by omega) (by omega) (by omega),
          if_neg (by omega)]
      · rw [if_neg hj]
        by_cases hj2 : j = i
        · subst hj2
          rw [if_pos (by omega), if_pos rfl, List.getElem?_set_self
            (by rw [copy_backward_loop_length]; omega)]
        · rw [if_neg hj2]
          by_cases hj3 : j < v.size_ + 1
          · rw [if_pos hj3, if_pos (by omega), List.getElem?_set_ne (by omega),
              copy_backward_loop_get _ _ _ _ (by omega) (by omega) (by omega),
              if_pos (by omega)]
            congr 1
            omega
          · rw [if_neg hj3, if_neg (by omega)]
  · have heq : v.size_ = v.capacity_ := by omega
    have hM : v.size_ + 1 ≤ max (2 * v.size_) 1 := by omega
    refine ⟨{ raw_vector_ := copy_loop v.raw_vector_ (v.size_ - i) i
                ((copy_loop v.raw_vector_ i 0
                  (ArrayPtr.alloc (max (2 * v.size_) 1)) 0).set i x) (i + 1),
              size_ := v.size_ + 1, capacity_ := max (2 * v.size_) 1 }, ?_, ?_, rfl, ?_, ?_⟩
    · simp only [Insert, if_pos hi, if_neg hc, ctor_size, hmod, hmod2]
      rw [std_copy_ok _ _ _ _ _ (Nat.zero_le _) (by omega) (by simp; omega)]
      simp only
      rw [subscript_assign_ok _ _ _ (by show i < v.size_ + 1; omega)
        (by simp only [copy_loop_length, ArrayPtr.length_alloc]; omega)]
      simp only
      rw [std_copy_ok _ _ _ _ _ hi (by omega)
        (by simp only [List.length_set, copy_loop_length, ArrayPtr.length_alloc]; omega)]
      rfl
    · constructor
      · exact hM
      · simp [copy_loop_length]
    · rw [if_neg hc]
    · apply List.ext_getElem?
      intro j
      rw [insert_get _ _ _ (by omega), contents_get, contents_get,
        contents_get]
      show (if j < v.size_ + 1 then (copy_loop v.raw_vector_ (v.size_ - i) i
                ((copy_loop v.raw_vector_ i 0
                  (ArrayPtr.alloc (max (2 * v.size_) 1)) 0).set i x) (i + 1))[j]?
            else none) = _
      rw [copy_loop_get _ _ _ _ _ (by omega)
        (by simp only [List.length_set, copy_loop_length, ArrayPtr.length_alloc]; omega)]
      by_cases hj : j < i
      · have a1 : j < v.size_ + 1 := by omega
        have a2 : ¬ (i + 1 ≤ j ∧ j < i + 1 + (v.size_ - i)) := by omega
        have a3 : j < v.size_ := by omega
        have a4 : 0 ≤ j ∧ j < 0 + i := by omega
        rw [if_pos a1, if_neg a2, if_pos hj, if_pos a3, List.getElem?_set_ne (by omega),
          copy_loop_get _ _ _ _ _ (by omega) (by simp; omega), if_pos a4]
        simp
      · rw [if_neg hj]
        by_cases hj2 : j = i
        · subst hj2
          have a1 : j < v.size_ + 1 := by omega
          have a2 : ¬ (j + 1 ≤ j ∧ j < j + 1 + (v.size_ - j)) := by omega
          rw [if_pos a1, if_neg a2, if_pos rfl, List.getElem?_set_self
            (by simp only [copy_loop_length, ArrayPtr.length_alloc]; omega)]
        · rw [if_neg hj2]
          by_cases hj3 : j < v.size_ + 1
          · have a2 : i + 1 ≤ j ∧ j < i + 1 + (v.size_ - i) := by omega
            have a3 : j - 1 < v.size_ := by omega
            rw [if_pos hj3, if_pos a2, if_pos a3]
            congr 1
            omega
          · have a3 : ¬ (j - 1 < v.size_) := by omega
            rw [if_neg hj3, if_neg a3]

theorem Erase_ok (v : SimpleVector α) (i : Nat) (hv : Valid v) (hi : i < v.size_) :
    ∃ w, Erase v i = .ok (w, i) ∧ Valid w ∧ w.size_ = v.size_ - 1 ∧
      w.capacity_ = v.capacity_ ∧ contents w = (contents v).eraseIdx i := by
  obtain ⟨h1, h2⟩ := hv
  refine ⟨{ raw_vector_ := copy_within_loop (v.size_ - (i + 1)) (i + 1) i v.raw_vector_,
            size_ := v.size_ - 1, capacity_ := v.capacity_ }, ?_, ?_, rfl, rfl, ?_⟩
  · simp only [Erase, if_pos hi]
    rw [std_copy_within_ok _ _ _ _ (by omega) (by omega) (by omega)]
  · constructor
    · show v.size_ - 1 ≤ v.capacity_
      omega
    · show v.capacity_ ≤ (copy_within_loop (v.size_ - (i + 1)) (i + 1) i v.raw_vector_).length
      rw [copy_within_loop_length]
      exact h2
  · apply List.ext_getElem?
    intro j
    rw [List.getElem?_eraseIdx, contents_get, contents_get, contents_get]
    show (if j < v.size_ - 1 then
        (copy_within_loop (v.size_ - (i + 1)) (i + 1) i v.raw_vector_)[j]? else none) = _
    rw [copy_within_loop_get _ _ _ _ (by omega) (by omega)]
    by_cases hj : j < i
    · rw [if_pos (by omega), if_neg (by omega), if_pos hj, if_pos (by omega)]
    · rw [if_neg hj]
      by_cases hj3 : j < v.size_ - 1
      · rw [if_pos hj3, if_pos (by omega), if_pos (by omega)]
        congr 1
        omega
      · rw [if_neg hj3, if_neg (by omega)]


theorem subscript_ok (v : SimpleVector α) (i : Nat) (x : α)
    (hi : i < v.size_) (hx : v.raw_vector_[i]? = some x) : subscript v i = .ok x := by
  simp [subscript, hi, ArrayPtr.load, hx]

theorem std_fill_ok (buf : List α) (first last : Nat) (value : α)
    (h1 : first ≤ last) (h2 : last ≤ buf.length) :
    std_fill buf first last value = .ok (fill_loop (last - first) first value buf) := by
  simp [std_fill, h1, h2]

theorem Resize_grow_ok [Inhabited α] [FreshBlock α] (v : SimpleVector α) (n : Nat) (hv : Valid v)
    (hn : v.size_ < n) :
    ∃ w, Resize v n = .ok w ∧ n ≤ w.size_ ∧
      (∀ i, i < v.size_ → w.raw_vector_[i]? = v.raw_vector_[i]?) ∧
      (∀ i, v.size_ ≤ i → i < n → w.raw_vector_[i]? =
        if n ≤ v.capacity_ then some default
        else (ArrayPtr.alloc (max (v.capacity_ * 2 % SIZE_T_RANGE) n) : ArrayPtr α)[i]?) := by
  obtain ⟨h1, h2⟩ := hv
  by_cases hc : n ≤ v.capacity_
  · refine ⟨{ raw_vector_ := fill_loop (n - v.size_) v.size_ default v.raw_vector_,
              size_ := n, capacity_ := v.capacity_ }, ?_, Nat.le_refl _, ?_, ?_⟩
    · simp only [Resize, if_pos hc, if_neg (show ¬ n ≤ v.size_ by omega)]
      rw [std_fill_ok _ _ _ _ (by omega) (by omega)]
    · intro i hi
      show (fill_loop (n - v.size_) v.size_ default v.raw_vector_)[i]? = _
      rw [fill_loop_get _ _ _ _ (by omega), if_neg (by omega)]
    · intro i hi1 hi2
      show (fill_loop (n - v.size_) v.size_ default v.raw_vector_)[i]? = _
      rw [fill_loop_get _ _ _ _ (by omega), if_pos (by omega), if_pos hc]
  · have hM : n ≤ max (v.capacity_ * 2 % SIZE_T_RANGE) n := Nat.le_max_right _ _
    refine ⟨{ raw_vector_ := copy_loop v.raw_vector_ v.size_ 0
                (ArrayPtr.alloc (max (v.capacity_ * 2 % SIZE_T_RANGE) n)) 0,
              size_ := max (v.capacity_ * 2 % SIZE_T_RANGE) n,
              capacity_ := max (v.capacity_ * 2 % SIZE_T_RANGE) n }, ?_, hM, ?_, ?_⟩
    · simp only [Resize, if_neg hc, ctor_size]
      rw [std_copy_ok _ _ _ _ _ (Nat.zero_le _) (by omega)
        (by simp only [ArrayPtr.length_alloc]; omega)]
      rfl
    · intro i hi
      show (copy_loop v.raw_vector_ v.size_ 0
        (ArrayPtr.alloc (max (v.capacity_ * 2 % SIZE_T_RANGE) n)) 0)[i]? = _
      have a1 : 0 ≤ i ∧ i < 0 + v.size_ := by omega
      rw [copy_loop_get _ _ _ _ _ (by omega)
        (by simp only [ArrayPtr.length_alloc]; omega), if_pos a1]
      simp
    · intro i hi1 hi2
      show (copy_loop v.raw_vector_ v.size_ 0
        (ArrayPtr.alloc (max (v.capacity_ * 2 % SIZE_T_RANGE) n)) 0)[i]? = _
      have a1 : ¬ (0 ≤ i ∧ i < 0 + v.size_) := by omega
      rw [copy_loop_get _ _ _ _ _ (by omega)
        (by simp only [ArrayPtr.length_alloc]; omega), if_neg a1, if_neg hc]

theorem Reserve_grow_ok [FreshBlock α] (v : SimpleVector α) (c : Nat) (hv : Valid v)
    (hc : c > v.capacity_) :
    ∃ w, Reserve v c = .ok w ∧ Valid w ∧ w.size_ = v.size_ ∧ w.capacity_ = c ∧
      w.raw_vector_.length = c ∧ contents w = contents v := by
  obtain ⟨h1, h2⟩ := hv
  refine ⟨{ raw_vector_ := copy_loop v.raw_vector_ v.size_ 0 (ArrayPtr.alloc c) 0,
            size_ := v.size_, capacity_ := c }, ?_, ?_, rfl, rfl, ?_, ?_⟩
  · simp only [Reserve, if_pos hc, ctor_size]
    rw [std_copy_ok _ _ _ _ _ (Nat.zero_le _) (by omega)
      (by simp only [ArrayPtr.length_alloc]; omega)]
    rfl
  · constructor
    · show v.size_ ≤ c
      omega
    · show c ≤ (copy_loop v.raw_vector_ v.size_ 0 (ArrayPtr.alloc c) 0).length
      simp [copy_loop_length]
  · show (copy_loop v.raw_vector_ v.size_ 0 (ArrayPtr.alloc c) 0).length = c
    simp [copy_loop_length]
  · apply List.ext_getElem?
    intro j
    rw [contents_get, contents_get]
    show (if j < v.size_ then
      (copy_loop v.raw_vector_ v.size_ 0 (ArrayPtr.alloc c) 0)[j]? else none) = _
    by_cases hj : j < v.size_
    · have a1 : 0 ≤ j ∧ j < 0 + v.size_ := by omega
      rw [if_pos hj, if_pos hj, copy_loop_get _ _ _ _ _ (by omega)
        (by simp only [ArrayPtr.length_alloc]; omega), if_pos a1]
      simp
    · rw [if_neg hj, if_neg hj]

theorem PushBack_seq_ok [FreshBlock α] (xs : List α) (v : SimpleVector α) (hv : Valid v)
    (hs : 2 * (v.size_ + xs.length) ≤ SIZE_T_RANGE) :
    ∃ w, PushBack_seq v xs = .ok w ∧ Valid w ∧ w.size_ = v.size_ + xs.length ∧
      v.capacity_ ≤ w.capacity_ ∧ contents w = contents v ++ xs := by
  induction xs generalizing v with
  | nil => exact ⟨v, rfl, hv, rfl, Nat.le_refl _, by simp⟩
  | cons x xs ih =>
    have hlen : (x :: xs).length = xs.length + 1 := rfl
    rw [hlen] at hs
    obtain ⟨u, hu, hvu, hsu, hcu, hcont⟩ := PushBack_ok v x hv (by omega)
    obtain ⟨w, hw, hvw, hsw, hcw, hcontw⟩ := ih u hvu (by rw [hsu]; omega)
    refine ⟨w, ?_, hvw, ?_, ?_, ?_⟩
    · simp only [PushBack_seq, hu]
      exact hw
    · rw [hsw, hsu, hlen]
      omega
    · have : v.capacity_ ≤ u.capacity_ := by
        rw [hcu]
        split
        · exact Nat.le_refl _
        · have := hv.1
          omega
      omega
    · rw [hcontw, hcont]
      simp


/-! ## The claims -/

theorem Valid_ctor_default : Valid (ctor_default : SimpleVector α) :=
  ⟨Nat.le_refl _, Nat.le_refl _⟩

theorem contents_ctor_default : contents (ctor_default : SimpleVector α) = [] := rfl

theorem subscript_congr (u v : SimpleVector α) (j : Nat) (hu : j < u.size_) (hv : j < v.size_)
    (h : (contents u)[j]? = (contents v)[j]?) : subscript u j = subscript v j := by
  rw [contents_get, contents_get, if_pos hu, if_pos hv] at h
  simp [subscript, hu, hv, ArrayPtr.load, h]

theorem eraseIdx_insert (l : List α) (i : Nat) (x : α) (hi : i ≤ l.length) :
    (l.take i ++ x :: l.drop i).eraseIdx i = l := by
  apply List.ext_getElem?
  intro j
  rw [List.getElem?_eraseIdx]
  by_cases hj : j < i
  · rw [if_pos hj, insert_get _ _ _ hi, if_pos hj]
  · have a1 : ¬ (j + 1 < i) := by omega
    have a2 : ¬ (j + 1 = i) := by omega
    rw [if_neg hj, insert_get _ _ _ hi, if_neg a1, if_neg a2]
    rfl

/-- C1 (defect in the code). Running `SimpleVector<int> v(2); v.Resize(3);` takes the
reallocation branch, which builds the temporary with
`max(capacity_ * 2, new_size) = 4` elements and swaps it in without setting its
size to `new_size`: the call returns with `GetSize() == 4`, not 3. -/
theorem Resize_realloc_size_at_2_3 :
    Resize (ctor_size 2 : SimpleVector Int) 3
        = .ok { raw_vector_ := [0, 0, 0, 0], size_ := 4, capacity_ := 4 } ∧
      (Resize (ctor_size 2 : SimpleVector Int) 3).map GetSize = .ok 4 ∧
      (Resize (ctor_size 2 : SimpleVector Int) 3).map GetSize ≠ .ok 3 := by
  decide

/-- Growth by `Resize` on a vector whose recorded capacity is within its block:
the call returns and every index below the old size reads the value it held
before.  After the in-place fill (`new_size <= capacity_`) every index from the
old size up to `new_size` reads `Type{}`; after a reallocation
(`new_size > capacity_`) those indices read whatever the fresh block held,
since no statement of that branch stores into them. -/
theorem Resize_grow_elements [Inhabited α] [FreshBlock α] (v : SimpleVector α) (n : Nat)
    (hv : Valid v) (hn : GetSize v < n) :
    ∃ w, Resize v n = .ok w ∧
      (∀ i, i < GetSize v → ∃ x, subscript v i = .ok x ∧ subscript w i = .ok x) ∧
      (n ≤ GetCapacity v → ∀ i, GetSize v ≤ i → i < n → subscript w i = .ok default) ∧
      (GetCapacity v < n → ∀ i, GetSize v ≤ i → i < n →
        ∃ x, (ArrayPtr.alloc (max (v.capacity_ * 2 % SIZE_T_RANGE) n) : ArrayPtr α)[i]? = some x ∧
          subscript w i = .ok x) := by
  obtain ⟨w, hw, hsz, hold, hnew⟩ := Resize_grow_ok v n hv hn
  refine ⟨w, hw, ?_, ?_, ?_⟩
  · intro i hi
    have hi2 : i < v.size_ := hi
    have hlen : i < v.raw_vector_.length := by
      have := hv.1
      have := hv.2
      omega
    refine ⟨v.raw_vector_[i], ?_, ?_⟩
    · exact subscript_ok v i _ hi2 (List.getElem?_eq_getElem hlen)
    · apply subscript_ok w i _ (by omega)
      rw [hold i hi2]
      exact List.getElem?_eq_getElem hlen
  · intro hcap i h1 h2
    have hcap2 : n ≤ v.capacity_ := hcap
    apply subscript_ok w i _ (by omega)
    rw [hnew i h1 h2, if_pos hcap2]
  · intro hcap i h1 h2
    have hcap2 : ¬ n ≤ v.capacity_ := by
      have : v.capacity_ < n := hcap
      omega
    have hlt : i < (ArrayPtr.alloc (max (v.capacity_ * 2 % SIZE_T_RANGE) n) : ArrayPtr α).length := by
      rw [ArrayPtr.length_alloc]
      omega
    refine ⟨_, List.getElem?_eq_getElem hlt, ?_⟩
    apply subscript_ok w i _ (by omega)
    rw [hnew i h1 h2, if_neg hcap2]
    exact List.getElem?_eq_getElem hlt

/-- C3. Starting from the default-constructed vector, pushing `x_1 .. x_n` one
after the other returns a vector of size `n`, capacity at least `n`, whose
element `i` is `x_(i+1)`; and no single push along the way lowers the capacity.
The length bound says that the element count fits a 64-bit address space. -/
theorem PushBack_seq_from_empty [FreshBlock α] (xs : List α)
    (hlen : 2 * xs.length ≤ SIZE_T_RANGE) :
    ∃ w, PushBack_seq (ctor_default : SimpleVector α) xs = .ok w ∧
      GetSize w = xs.length ∧ xs.length ≤ GetCapacity w ∧ contents w = xs ∧
      (∀ i (hi : i < xs.length), subscript w i = .ok xs[i]) ∧
      (∀ ys x zs, xs = ys ++ x :: zs →
        ∃ a b, PushBack_seq (ctor_default : SimpleVector α) ys = .ok a ∧
          PushBack a x = .ok b ∧ GetCapacity a ≤ GetCapacity b) := by
  obtain ⟨w, hw, hvw, hsw, _, hcw⟩ :=
    PushBack_seq_ok xs (ctor_default : SimpleVector α) Valid_ctor_default
      (by show 2 * (0 + xs.length) ≤ SIZE_T_RANGE; omega)
  have hsz : w.size_ = xs.length := by
    rw [hsw]
    show 0 + xs.length = xs.length
    omega
  have hc : contents w = xs := by
    rw [hcw, contents_ctor_default]
    rfl
  refine ⟨w, hw, hsz, ?_, hc, ?_, ?_⟩
  · show xs.length ≤ w.capacity_
    have := hvw.1
    omega
  · intro i hi
    apply subscript_eq w i _ (by omega)
    rw [hc]
    exact List.getElem?_eq_getElem hi
  · intro ys x zs hxs
    have hl : ys.length + 1 ≤ xs.length := by
      rw [hxs]
      simp
    obtain ⟨a, ha, hva, hsa, _, _⟩ :=
      PushBack_seq_ok ys (ctor_default : SimpleVector α) Valid_ctor_default
        (by show 2 * (0 + ys.length) ≤ SIZE_T_RANGE; omega)
    have hsa2 : a.size_ = ys.length := by
      rw [hsa]
      show 0 + ys.length = ys.length
      omega
    obtain ⟨b, hb, _, _, hcb, _⟩ := PushBack_ok a x hva (by rw [hsa2]; omega)
    refine ⟨a, b, ha, hb, ?_⟩
    show a.capacity_ ≤ b.capacity_
    rw [hcb]
    split
    · exact Nat.le_refl _
    · have := hva.1
      omega

/-- Witness for C3: the scenario of the specification, pushing 1, 2, 3. -/
theorem PushBack_seq_from_empty_witness :
    2 * ([1, 2, 3] : List Int).length ≤ SIZE_T_RANGE ∧
    ∃ w, PushBack_seq (ctor_default : SimpleVector Int) [1, 2, 3] = .ok w ∧
      GetSize w = ([1, 2, 3] : List Int).length ∧
      ([1, 2, 3] : List Int).length ≤ GetCapacity w ∧ contents w = [1, 2, 3] ∧
      (∀ i (hi : i < ([1, 2, 3] : List Int).length),
        subscript w i = .ok ([1, 2, 3] : List Int)[i]) ∧
      (∀ ys x zs, ([1, 2, 3] : List Int) = ys ++ x :: zs →
        ∃ a b, PushBack_seq (ctor_default : SimpleVector Int) ys = .ok a ∧
          PushBack a x = .ok b ∧ GetCapacity a ≤ GetCapacity b) :=
  ⟨by decide, PushBack_seq_from_empty [1, 2, 3] (by decide)⟩

/-- Capacity rule of `PushBack` and `Insert`, on a vector whose recorded capacity is
within its block and whose doubled size fits `size_t`: both calls (`Insert` at
any position of `[begin, end]`) return; when the vector was full (`size == capacity`) each leaves the capacity
at `max(2 * old size, 1)`, and when it had room (`size < capacity`) each leaves
the capacity unchanged. -/
theorem PushBack_Insert_capacity [FreshBlock α] (v : SimpleVector α) (i : Nat) (x : α)
    (hv : Valid v) (hs : 2 * GetSize v < SIZE_T_RANGE) (hi : i ≤ GetSize v) :
    ∃ w u, PushBack v x = .ok w ∧ Insert v i x = .ok (u, i) ∧
      (GetSize v = GetCapacity v →
        GetCapacity w = max (2 * GetSize v) 1 ∧ GetCapacity u = max (2 * GetSize v) 1) ∧
      (GetSize v < GetCapacity v →
        GetCapacity w = GetCapacity v ∧ GetCapacity u = GetCapacity v) := by
  obtain ⟨w, hw, _, _, hcw, _⟩ := PushBack_ok v x hv hs
  obtain ⟨u, hu, _, _, hcu, _⟩ := Insert_ok v i x hv hs hi
  refine ⟨w, u, hw, hu, ?_, ?_⟩
  · intro heq
    have hn : ¬ v.size_ < v.capacity_ := by
      have : v.size_ = v.capacity_ := heq
      omega
    rw [if_neg hn] at hcw hcu
    exact ⟨hcw, hcu⟩
  · intro hlt
    have hp : v.size_ < v.capacity_ := hlt
    rw [if_pos hp] at hcw hcu
    exact ⟨hcw, hcu⟩

/-- Instances of the capacity rule: the full vector `{1, 2}`, the same contents with two spare
slots, and the empty vector of capacity 0. -/
theorem PushBack_Insert_capacity_witness :
    (Valid sample_full ∧ 2 * GetSize sample_full < SIZE_T_RANGE ∧ 1 ≤ GetSize sample_full ∧
      ∃ w u, PushBack sample_full 5 = .ok w ∧ Insert sample_full 1 5 = .ok (u, 1) ∧
        (GetSize sample_full = GetCapacity sample_full →
          GetCapacity w = max (2 * GetSize sample_full) 1 ∧
          GetCapacity u = max (2 * GetSize sample_full) 1) ∧
        (GetSize sample_full < GetCapacity sample_full →
          GetCapacity w = GetCapacity sample_full ∧
          GetCapacity u = GetCapacity sample_full)) ∧
    (Valid sample_room ∧ 2 * GetSize sample_room < SIZE_T_RANGE ∧ 1 ≤ GetSize sample_room ∧
      ∃ w u, PushBack sample_room 5 = .ok w ∧ Insert sample_room 1 5 = .ok (u, 1) ∧
        (GetSize sample_room = GetCapacity sample_room →
          GetCapacity w = max (2 * GetSize sample_room) 1 ∧
          GetCapacity u = max (2 * GetSize sample_room) 1) ∧
        (GetSize sample_room < GetCapacity sample_room →
          GetCapacity w = GetCapacity sample_room ∧
          GetCapacity u = GetCapacity sample_room)) ∧
    (Valid (ctor_default : SimpleVector Int) ∧
      2 * GetSize (ctor_default : SimpleVector Int) < SIZE_T_RANGE ∧
      0 ≤ GetSize (ctor_default : SimpleVector Int) ∧
      ∃ w u, PushBack (ctor_default : SimpleVector Int) 5 = .ok w ∧
        Insert (ctor_default : SimpleVector Int) 0 5 = .ok (u, 0) ∧
        (GetSize (ctor_default : SimpleVector Int) =
            GetCapacity (ctor_default : SimpleVector Int) →
          GetCapacity w = max (2 * GetSize (ctor_default : SimpleVector Int)) 1 ∧
          GetCapacity u = max (2 * GetSize (ctor_default : SimpleVector Int)) 1) ∧
        (GetSize (ctor_default : SimpleVector Int) <
            GetCapacity (ctor_default : SimpleVector Int) →
          GetCapacity w = GetCapacity (ctor_default : SimpleVector Int) ∧
          GetCapacity u = GetCapacity (ctor_default : SimpleVector Int))) :=
  ⟨⟨by decide, by decide, by decide,
      PushBack_Insert_capacity sample_full 1 5 (by decide) (by decide) (by decide)⟩,
   ⟨by decide, by decide, by decide,
      PushBack_Insert_capacity sample_room 1 5 (by decide) (by decide) (by decide)⟩,
   ⟨by decide, by decide, by decide,
      PushBack_Insert_capacity ctor_default 0 5 (by decide) (by decide) (by decide)⟩⟩

/-- Contents after `Insert`, on a vector whose recorded capacity is within its
block and whose doubled size fits `size_t`: `Insert(begin() + i, x)` with `i <= size` returns the iterator
`begin() + i` of the resulting vector, which reads `x`; the size grows by one and
the contents are `e_0 .. e_(i-1), x, e_i .. e_(s-1)`.  Any other such vector with
the same contents, whatever its capacity (so whichever of the two branches it
takes), ends with the same contents. -/
theorem Insert_contents [FreshBlock α] (v : SimpleVector α) (i : Nat) (x : α)
    (hv : Valid v) (hs : 2 * GetSize v < SIZE_T_RANGE) (hi : i ≤ GetSize v) :
    ∃ w, Insert v i x = .ok (w, i) ∧ GetSize w = GetSize v + 1 ∧
      contents w = (contents v).take i ++ x :: (contents v).drop i ∧
      subscript w i = .ok x ∧
      (∀ v2 : SimpleVector α, Valid v2 → contents v2 = contents v →
        ∃ w2, Insert v2 i x = .ok (w2, i) ∧ contents w2 = contents w) := by
  obtain ⟨w, hw, _, hsw, _, hcw⟩ := Insert_ok v i x hv hs hi
  have hcl : (contents v).length = v.size_ := contents_length v hv
  have hi1 : i ≤ v.size_ := hi
  refine ⟨w, hw, hsw, hcw, ?_, ?_⟩
  · apply subscript_eq w i x (by omega)
    rw [hcw, insert_get _ _ _ (by omega), if_neg (Nat.lt_irrefl i), if_pos rfl]
  · intro v2 hv2 hc2
    have hl2 : v2.size_ = v.size_ := by
      rw [← contents_length v2 hv2, hc2, hcl]
    obtain ⟨w2, hw2, _, _, _, hcw2⟩ :=
      Insert_ok v2 i x hv2 (by rw [hl2]; exact hs) (by omega)
    exact ⟨w2, hw2, by rw [hcw2, hcw, hc2]⟩

/-- Instances of the contents after `Insert`: the scenario of the specification (insert 0 at `begin() + 1`
into `{1, 2, 3}`), once with a spare slot and once on a full vector. -/
theorem Insert_contents_witness :
    (Valid sample_123_room ∧ 2 * GetSize sample_123_room < SIZE_T_RANGE ∧
      1 ≤ GetSize sample_123_room ∧
      ∃ w, Insert sample_123_room 1 0 = .ok (w, 1) ∧ GetSize w = GetSize sample_123_room + 1 ∧
        contents w = (contents sample_123_room).take 1 ++ 0 :: (contents sample_123_room).drop 1 ∧
        subscript w 1 = .ok 0 ∧
        (∀ v2 : SimpleVector Int, Valid v2 → contents v2 = contents sample_123_room →
          ∃ w2, Insert v2 1 0 = .ok (w2, 1) ∧ contents w2 = contents w)) ∧
    (Valid sample_123_full ∧ 2 * GetSize sample_123_full < SIZE_T_RANGE ∧
      1 ≤ GetSize sample_123_full ∧
      ∃ w, Insert sample_123_full 1 0 = .ok (w, 1) ∧ GetSize w = GetSize sample_123_full + 1 ∧
        contents w = (contents sample_123_full).take 1 ++ 0 :: (contents sample_123_full).drop 1 ∧
        subscript w 1 = .ok 0 ∧
        (∀ v2 : SimpleVector Int, Valid v2 → contents v2 = contents sample_123_full →
          ∃ w2, Insert v2 1 0 = .ok (w2, 1) ∧ contents w2 = contents w)) :=
  ⟨⟨by decide, by decide, by decide,
      Insert_contents sample_123_room 1 0 (by decide) (by decide) (by decide)⟩,
   ⟨by decide, by decide, by decide,
      Insert_contents sample_123_full 1 0 (by decide) (by decide) (by decide)⟩⟩

/-- C6. On a vector satisfying the representation invariant, `Erase(begin() + i)`
with `i < size` returns `begin() + i`; the contents become
`e_0 .. e_(i-1), e_(i+1) .. e_(s-1)`, the size drops by one, the capacity is
unchanged, and the returned iterator is `end()` exactly when the erased element
was the last one. -/
theorem Erase_contents (v : SimpleVector α) (i : Nat) (hv : Valid v) (hi : i < GetSize v) :
    ∃ w, Erase v i = .ok (w, i) ∧ contents w = (contents v).eraseIdx i ∧
      GetSize w = GetSize v - 1 ∧ GetCapacity w = GetCapacity v ∧
      (i = GetSize w ↔ i + 1 = GetSize v) := by
  obtain ⟨w, hw, _, hsw, hcap, hcw⟩ := Erase_ok v i hv hi
  have hi1 : i < v.size_ := hi
  refine ⟨w, hw, hcw, hsw, hcap, ?_⟩
  show i = w.size_ ↔ i + 1 = v.size_
  rw [hsw]
  omega

/-- Witness for C6: the scenario of the specification, erasing `begin() + 0` of
`{1, 0, 2, 3}`. -/
theorem Erase_contents_witness :
    Valid sample_1023 ∧ 0 < GetSize sample_1023 ∧
    ∃ w, Erase sample_1023 0 = .ok (w, 0) ∧ contents w = (contents sample_1023).eraseIdx 0 ∧
      GetSize w = GetSize sample_1023 - 1 ∧ GetCapacity w = GetCapacity sample_1023 ∧
      (0 = GetSize w ↔ 0 + 1 = GetSize sample_1023) :=
  ⟨by decide, by decide, Erase_contents sample_1023 0 (by decide) (by decide)⟩

/-- Round trip of `Insert` and `Erase`, on a vector whose recorded capacity is
within its block and whose doubled size fits `size_t`: `Insert(begin() + i, x)` followed by `Erase(begin() + i)` both
return and restore the original sequence: same size, same contents, and every
index below the size reads what it read before. -/
theorem Insert_Erase_restores [FreshBlock α] (v : SimpleVector α) (i : Nat) (x : α)
    (hv : Valid v) (hs : 2 * GetSize v < SIZE_T_RANGE) (hi : i ≤ GetSize v) :
    ∃ w u, Insert v i x = .ok (w, i) ∧ Erase w i = .ok (u, i) ∧
      GetSize u = GetSize v ∧ contents u = contents v ∧
      (∀ j, j < GetSize v → subscript u j = subscript v j) := by
  obtain ⟨w, hw, hvw, hsw, _, hcw⟩ := Insert_ok v i x hv hs hi
  have hi1 : i ≤ v.size_ := hi
  obtain ⟨u, hu, _, hsu, _, hcu⟩ := Erase_ok w i hvw (by omega)
  have hcl : (contents v).length = v.size_ := contents_length v hv
  have hsz : u.size_ = v.size_ := by
    rw [hsu, hsw]
    omega
  have hc : contents u = contents v := by
    rw [hcu, hcw]
    exact eraseIdx_insert _ _ _ (by omega)
  refine ⟨w, u, hw, hu, hsz, hc, ?_⟩
  intro j hj
  have hj1 : j < v.size_ := hj
  exact subscript_congr u v j (by omega) hj1 (by rw [hc])

/-- Instances of the round trip, on a full vector (reallocating insert) and on one with room. -/
theorem Insert_Erase_restores_witness :
    (Valid sample_123_full ∧ 2 * GetSize sample_123_full < SIZE_T_RANGE ∧
      3 ≤ GetSize sample_123_full ∧
      ∃ w u, Insert sample_123_full 3 9 = .ok (w, 3) ∧ Erase w 3 = .ok (u, 3) ∧
        GetSize u = GetSize sample_123_full ∧ contents u = contents sample_123_full ∧
        (∀ j, j < GetSize sample_123_full → subscript u j = subscript sample_123_full j)) ∧
    (Valid sample_123_room ∧ 2 * GetSize sample_123_room < SIZE_T_RANGE ∧
      1 ≤ GetSize sample_123_room ∧
      ∃ w u, Insert sample_123_room 1 9 = .ok (w, 1) ∧ Erase w 1 = .ok (u, 1) ∧
        GetSize u = GetSize sample_123_room ∧ contents u = contents sample_123_room ∧
        (∀ j, j < GetSize sample_123_room → subscript u j = subscript sample_123_room j)) :=
  ⟨⟨by decide, by decide, by decide,
      Insert_Erase_restores sample_123_full 3 9 (by decide) (by decide) (by decide)⟩,
   ⟨by decide, by decide, by decide,
      Insert_Erase_restores sample_123_room 1 9 (by decide) (by decide) (by decide)⟩⟩

/-- C8. `At(i)` throws `out_of_range` exactly when `i >= GetSize()`; for
`i < GetSize()` its outcome is that of `operator[]` at `i`, which on a vector
satisfying the representation invariant is element `i` of the contents; and in
every case the vector (size, capacity, storage) is left as it was. -/
theorem At_spec (v : SimpleVector α) (i : Nat) :
    ((At v i).2 = .error Fault.out_of_range ↔ i ≥ GetSize v) ∧
    (i < GetSize v → (At v i).2 = subscript v i) ∧
    (Valid v → i < GetSize v → ∃ x, (contents v)[i]? = some x ∧ (At v i).2 = .ok x) ∧
    (At v i).1 = v := by
  by_cases hi : i ≥ v.size_
  · have hn : ¬ i < v.size_ := by omega
    refine ⟨?_, ?_, ?_, ?_⟩
    · constructor
      · intro _
        exact hi
      · intro _
        simp only [At, if_pos hi]
    · intro h
      exact absurd h hn
    · intro _ h
      exact absurd h hn
    · simp only [At, if_pos hi]
  · have hlt : i < v.size_ := by omega
    refine ⟨?_, ?_, ?_, ?_⟩
    · simp only [At, if_neg hi, GetSize]
      constructor
      · intro h
        unfold ArrayPtr.load at h
        split at h <;> simp at h
      · intro h
        exact absurd h hi
    · intro _
      simp only [At, if_neg hi, subscript, if_pos hlt]
    · intro hv _
      have hlen : i < v.raw_vector_.length := by
        have := hv.1
        have := hv.2
        omega
      refine ⟨v.raw_vector_[i], ?_, ?_⟩
      · rw [contents_get, if_pos hlt]
        exact List.getElem?_eq_getElem hlen
      · simp only [At, if_neg hi, ArrayPtr.load, List.getElem?_eq_getElem hlen]
    · simp only [At, if_neg hi]

/-- Witness for C8: the scenario of the specification on `{0, 2, 3}`: `At(1)` is
within range and `At(5)` is not. -/
theorem At_spec_witness :
    (Valid sample_023 ∧ 1 < GetSize sample_023 ∧ (At sample_023 1).2 = .ok 2 ∧
      (((At sample_023 1).2 = .error Fault.out_of_range ↔ 1 ≥ GetSize sample_023) ∧
        (1 < GetSize sample_023 → (At sample_023 1).2 = subscript sample_023 1) ∧
        (Valid sample_023 → 1 < GetSize sample_023 →
          ∃ x, (contents sample_023)[1]? = some x ∧ (At sample_023 1).2 = .ok x) ∧
        (At sample_023 1).1 = sample_023)) ∧
    (5 ≥ GetSize sample_023 ∧ (At sample_023 5).2 = .error Fault.out_of_range ∧
      (((At sample_023 5).2 = .error Fault.out_of_range ↔ 5 ≥ GetSize sample_023) ∧
        (5 < GetSize sample_023 → (At sample_023 5).2 = subscript sample_023 5) ∧
        (Valid sample_023 → 5 < GetSize sample_023 →
          ∃ x, (contents sample_023)[5]? = some x ∧ (At sample_023 5).2 = .ok x) ∧
        (At sample_023 5).1 = sample_023)) :=
  ⟨⟨by decide, by decide, by decide, At_spec sample_023 1⟩,
   ⟨by decide, by decide, At_spec sample_023 5⟩⟩

/-- C9. On a vector satisfying the representation invariant, `Reserve(c)` with
`c > GetCapacity()` returns a vector of capacity exactly `c` with the same size
and the same contents; with `c <= GetCapacity()` it returns the vector
unchanged. -/
theorem Reserve_spec [FreshBlock α] (v : SimpleVector α) (c : Nat) (hv : Valid v) :
    (c > GetCapacity v →
      ∃ w, Reserve v c = .ok w ∧ GetCapacity w = c ∧ GetSize w = GetSize v ∧
        contents w = contents v) ∧
    (c ≤ GetCapacity v → Reserve v c = .ok v) := by
  constructor
  · intro hc
    obtain ⟨w, hw, _, hsw, hcw, _, hcont⟩ := Reserve_grow_ok v c hv hc
    exact ⟨w, hw, hcw, hsw, hcont⟩
  · intro hc
    have hn : ¬ c > v.capacity_ := by
      have : c ≤ v.capacity_ := hc
      omega
    simp only [Reserve, if_neg hn]

/-- Witness for C9: `{1, 2, 3}` with capacity 4, reserving 10 and reserving 2. -/
theorem Reserve_spec_witness :
    (Valid sample_123_room ∧ 10 > GetCapacity sample_123_room ∧
      ((10 > GetCapacity sample_123_room →
        ∃ w, Reserve sample_123_room 10 = .ok w ∧ GetCapacity w = 10 ∧
          GetSize w = GetSize sample_123_room ∧ contents w = contents sample_123_room) ∧
       (10 ≤ GetCapacity sample_123_room → Reserve sample_123_room 10 = .ok sample_123_room))) ∧
    (Valid sample_123_room ∧ 2 ≤ GetCapacity sample_123_room ∧
      ((2 > GetCapacity sample_123_room →
        ∃ w, Reserve sample_123_room 2 = .ok w ∧ GetCapacity w = 2 ∧
          GetSize w = GetSize sample_123_room ∧ contents w = contents sample_123_room) ∧
       (2 ≤ GetCapacity sample_123_room → Reserve sample_123_room 2 = .ok sample_123_room))) :=
  ⟨⟨by decide, by decide, Reserve_spec sample_123_room 10 (by decide)⟩,
   ⟨by decide, by decide, Reserve_spec sample_123_room 2 (by decide)⟩⟩

end SimpleVector

/-- C10. For every capacity `c`, the constructor taking the proxy object made by
the free function `Reserve(c)` returns a vector with `GetSize() == 0` and
`GetCapacity() == c`, backed by a block of `c` cells. -/
theorem ctor_reserve_proxy_spec {α : Type} [FreshBlock α] (c : Nat) :
    ∃ w : SimpleVector α, SimpleVector.ctor_reserve (Reserve c) = .ok w ∧
      SimpleVector.GetSize w = 0 ∧ SimpleVector.GetCapacity w = c ∧
      w.raw_vector_.length = c := by
  by_cases hc : c > 0
  · obtain ⟨w, hw, _, hsw, hcw, hlw, _⟩ :=
      SimpleVector.Reserve_grow_ok (SimpleVector.ctor_default : SimpleVector α) c
        SimpleVector.Valid_ctor_default hc
    exact ⟨w, hw, hsw, hcw, hlw⟩
  · have h0 : c = 0 := by omega
    subst h0
    exact ⟨SimpleVector.ctor_default, rfl, rfl, rfl, rfl⟩

/-! ## Resizing back, copying and moving -/

namespace SimpleVector

variable {α : Type}

theorem subscript_congr_raw (u v : SimpleVector α) (j : Nat) (hu : j < u.size_)
    (hv : j < v.size_) (h : u.raw_vector_[j]? = v.raw_vector_[j]?) :
    subscript u j = subscript v j := by
  simp [subscript, hu, hv, ArrayPtr.load, h]

theorem Resize_within_capacity [Inhabited α] [FreshBlock α] (v : SimpleVector α) (n : Nat) (hv : Valid v)
    (hn : n ≤ v.capacity_) :
    ∃ w, Resize v n = .ok w ∧ Valid w ∧ w.size_ = n ∧ w.capacity_ = v.capacity_ ∧
      (∀ i : Nat, w.raw_vector_[i]? =
        if v.size_ ≤ i ∧ i < n then some default else v.raw_vector_[i]?) := by
  obtain ⟨h1, h2⟩ := hv
  by_cases hs : n ≤ v.size_
  · refine ⟨{ raw_vector_ := v.raw_vector_, size_ := n, capacity_ := v.capacity_ }, ?_,
      ⟨hn, h2⟩, rfl, rfl, ?_⟩
    · simp only [Resize, if_pos hn, if_pos hs]
    · intro i
      have a1 : ¬ (v.size_ ≤ i ∧ i < n) := by omega
      rw [if_neg a1]
  · refine ⟨{ raw_vector_ := fill_loop (n - v.size_) v.size_ default v.raw_vector_,
              size_ := n, capacity_ := v.capacity_ }, ?_, ⟨hn, ?_⟩, rfl, rfl, ?_⟩
    · simp only [Resize, if_pos hn, if_neg hs]
      rw [std_fill_ok _ _ _ _ (by omega) (by omega)]
    · show v.capacity_ ≤ (fill_loop (n - v.size_) v.size_ default v.raw_vector_).length
      rw [fill_loop_length]
      exact h2
    · intro i
      show (fill_loop (n - v.size_) v.size_ default v.raw_vector_)[i]? = _
      rw [fill_loop_get _ _ _ _ (by omega)]
      by_cases a1 : v.size_ ≤ i ∧ i < n
      · have a2 : v.size_ ≤ i ∧ i < v.size_ + (n - v.size_) := by omega
        rw [if_pos a1, if_pos a2]
      · have a2 : ¬ (v.size_ ≤ i ∧ i < v.size_ + (n - v.size_)) := by omega
        rw [if_neg a1, if_neg a2]

/-- C11 (as amended). On a vector whose recorded capacity is within its block
(`size_ <= capacity_ <= allocated cells`), with original size `s` and any `k` not
above its capacity, `Resize(k)` followed by `Resize(s)` both return and give
size `s`; every index below both `k` and `s` reads its original element, and
every index from `k` up to `s` reads `Type{}`. -/
theorem Resize_Resize_back [Inhabited α] [FreshBlock α] (v : SimpleVector α) (k : Nat) (hv : Valid v)
    (hk : k ≤ GetCapacity v) :
    ∃ w1 w2, Resize v k = .ok w1 ∧ Resize w1 (GetSize v) = .ok w2 ∧
      GetSize w2 = GetSize v ∧
      (∀ i, i < GetSize v → i < k → subscript w2 i = subscript v i) ∧
      (∀ i, i < GetSize v → k ≤ i → subscript w2 i = .ok default) := by
  obtain ⟨w1, hw1, hv1, hs1, hc1, hr1⟩ := Resize_within_capacity v k hv hk
  have hcap : v.size_ ≤ w1.capacity_ := by
    rw [hc1]
    exact hv.1
  obtain ⟨w2, hw2, _, hs2, _, hr2⟩ := Resize_within_capacity w1 v.size_ hv1 hcap
  refine ⟨w1, w2, hw1, hw2, hs2, ?_, ?_⟩
  · intro i hi hik
    have hi1 : i < v.size_ := hi
    apply subscript_congr_raw w2 v i (by omega) hi1
    have a1 : ¬ (w1.size_ ≤ i ∧ i < v.size_) := by omega
    have a2 : ¬ (v.size_ ≤ i ∧ i < k) := by omega
    rw [hr2 i, if_neg a1, hr1 i, if_neg a2]
  · intro i hi hik
    have hi1 : i < v.size_ := hi
    apply subscript_ok w2 i _ (by omega)
    have a1 : w1.size_ ≤ i ∧ i < v.size_ := by omega
    rw [hr2 i, if_pos a1]

/-- Witness for C11 (as amended): `{1, 2, 3}` shrunk to 1 and resized back, and
`{1, 2}` with capacity 4 grown to 4 and resized back. -/
theorem Resize_Resize_back_witness :
    (Valid sample_123_full ∧ 1 ≤ GetCapacity sample_123_full ∧
      ∃ w1 w2, Resize sample_123_full 1 = .ok w1 ∧
        Resize w1 (GetSize sample_123_full) = .ok w2 ∧
        GetSize w2 = GetSize sample_123_full ∧
        (∀ i, i < GetSize sample_123_full → i < 1 →
          subscript w2 i = subscript sample_123_full i) ∧
        (∀ i, i < GetSize sample_123_full → 1 ≤ i → subscript w2 i = .ok default)) ∧
    (Valid sample_room ∧ 4 ≤ GetCapacity sample_room ∧
      ∃ w1 w2, Resize sample_room 4 = .ok w1 ∧ Resize w1 (GetSize sample_room) = .ok w2 ∧
        GetSize w2 = GetSize sample_room ∧
        (∀ i, i < GetSize sample_room → i < 4 → subscript w2 i = subscript sample_room i) ∧
        (∀ i, i < GetSize sample_room → 4 ≤ i → subscript w2 i = .ok default)) :=
  ⟨⟨by decide, by decide, Resize_Resize_back sample_123_full 1 (by decide) (by decide)⟩,
   ⟨by decide, by decide, Resize_Resize_back sample_room 4 (by decide) (by decide)⟩⟩

/-- C11 fails as stated, in two ways.  On `{1, 2, 3}` (capacity 3, so `k = 1` does
not exceed it), `Resize(1)` followed by `Resize(3)` returns size 3 but index 1
reads 0 where the original held 2.  And on the copy of `{1, 2, 3}` of capacity 4
(a block of 3 cells with recorded capacity 4, so `k = 4` does not exceed it)
`Resize(4)` fills cell 3, outside the block. -/
theorem Resize_Resize_back_loses_elements :
    (1 ≤ GetCapacity sample_123_full ∧
      ∃ w1 w2, Resize sample_123_full 1 = .ok w1 ∧
        Resize w1 (GetSize sample_123_full) = .ok w2 ∧
        GetSize w2 = GetSize sample_123_full ∧
        subscript sample_123_full 1 = .ok 2 ∧ subscript w2 1 = .ok 0 ∧
        ¬ (∀ i, i < GetSize sample_123_full →
          subscript w2 i = subscript sample_123_full i)) ∧
    (ctor_copy sample_123_room = .ok sample_123_copy ∧ 4 ≤ GetCapacity sample_123_copy ∧
      Resize sample_123_copy 4 = .error Fault.out_of_bounds) := by
  refine ⟨⟨by decide, { raw_vector_ := [1, 2, 3], size_ := 1, capacity_ := 3 },
    { raw_vector_ := [1, 0, 0], size_ := 3, capacity_ := 3 },
    by decide, by decide, by decide, by decide, by decide, ?_⟩, by decide, by decide, by decide⟩
  intro h
  exact absurd (h 1 (by decide)) (by decide)

/-- C12 (defect in the code, the same one as in C18). Copying `{1, 2, 3}` of capacity
4 gives a vector that compares equal to the original, but whose block has 3
cells while its recorded capacity is 4; `PushBack` on the copy then takes the
in-place branch and writes cell 3, outside the block. -/
theorem ctor_copy_PushBack_outside_block :
    ctor_copy sample_123_room = .ok { raw_vector_ := [1, 2, 3], size_ := 3, capacity_ := 4 } ∧
    operator_eq ({ raw_vector_ := [1, 2, 3], size_ := 3, capacity_ := 4 } : SimpleVector Int)
      sample_123_room = .ok true ∧
    PushBack ({ raw_vector_ := [1, 2, 3], size_ := 3, capacity_ := 4 } : SimpleVector Int) 4
      = .error Fault.out_of_bounds := by
  decide

/-- C13. Move-constructing `b` from any `a` leaves `a` with size 0 and capacity 0,
and gives `b` the size of `a` and exactly its elements, in the same order. -/
theorem ctor_move_spec (a : SimpleVector α) :
    GetSize (ctor_move a).2 = 0 ∧ GetCapacity (ctor_move a).2 = 0 ∧
    GetSize (ctor_move a).1 = GetSize a ∧ contents (ctor_move a).1 = contents a ∧
    (∀ i, subscript (ctor_move a).1 i = subscript a i) :=
  ⟨rfl, rfl, rfl, rfl, fun _ => rfl⟩

/-- C20 (defect in the code). Move-constructing from `{1, 2}` of capacity 4 hands over
the 4-cell block and the size 2, but records `capacity_ = size_`: the new
vector reports capacity 2, not 4. -/
theorem ctor_move_capacity_at_sample_room :
    (ctor_move sample_room).1 = { raw_vector_ := [1, 2, 7, 9], size_ := 2, capacity_ := 2 } ∧
    GetSize sample_room = 2 ∧ GetCapacity sample_room = 4 ∧
    GetSize (ctor_move sample_room).1 = 2 ∧ GetCapacity (ctor_move sample_room).1 = 2 ∧
    GetCapacity (ctor_move sample_room).1 ≠ GetCapacity sample_room := by
  decide

end SimpleVector

/-! ## Reserved capacity and the invariants of reachable vectors -/

namespace SimpleVector

variable {α : Type}

theorem PushBack_room_ok [FreshBlock α] (v : SimpleVector α) (x : α) (hv : Valid v)
    (hc : v.size_ < v.capacity_) (hr : v.capacity_ < SIZE_T_RANGE) :
    ∃ w, PushBack v x = .ok w ∧ Valid w ∧ w.size_ = v.size_ + 1 ∧
      w.capacity_ = v.capacity_ ∧ w.raw_vector_.length = v.raw_vector_.length ∧
      contents w = contents v ++ [x] := by
  have hcl : (contents v).length = v.size_ := contents_length v hv
  obtain ⟨h1, h2⟩ := hv
  have hmod : (v.size_ + 1) % SIZE_T_RANGE = v.size_ + 1 := by
    unfold SIZE_T_RANGE at *; omega
  have hlen : v.size_ < v.raw_vector_.length := by omega
  refine ⟨{ raw_vector_ := v.raw_vector_.set v.size_ x, size_ := v.size_ + 1,
            capacity_ := v.capacity_ }, ?_, ?_, rfl, rfl, ?_, ?_⟩
  · simp only [PushBack, if_pos hc, hmod]
    rw [store_ok _ _ _ hlen]
  · constructor
    · show v.size_ + 1 ≤ v.capacity_
      omega
    · show v.capacity_ ≤ (v.raw_vector_.set v.size_ x).length
      rw [List.length_set]
      exact h2
  · show (v.raw_vector_.set v.size_ x).length = v.raw_vector_.length
    rw [List.length_set]
  · apply List.ext_getElem?
    intro i
    rw [contents_get, List.getElem?_append, contents_get, hcl]
    show (if i < v.size_ + 1 then (v.raw_vector_.set v.size_ x)[i]? else none) = _
    by_cases hi : i < v.size_
    · have a1 : i < v.size_ + 1 := by omega
      rw [if_pos a1, if_pos hi, if_pos hi, List.getElem?_set_ne (by omega)]
    · by_cases hi2 : i = v.size_
      · subst hi2
        have a1 : v.size_ < v.size_ + 1 := by omega
        rw [if_pos a1, if_neg hi, List.getElem?_set_self hlen]
        simp
      · have a1 : ¬ (i < v.size_ + 1) := by omega
        rw [if_neg a1, if_neg hi]
        simp
        omega

theorem PushBack_seq_room_ok [FreshBlock α] (xs : List α) (v : SimpleVector α) (hv : Valid v)
    (hc : v.size_ + xs.length ≤ v.capacity_) (hr : v.capacity_ < SIZE_T_RANGE) :
    ∃ w, PushBack_seq v xs = .ok w ∧ Valid w ∧ w.size_ = v.size_ + xs.length ∧
      w.capacity_ = v.capacity_ ∧ w.raw_vector_.length = v.raw_vector_.length ∧
      contents w = contents v ++ xs := by
  induction xs generalizing v with
  | nil => exact ⟨v, rfl, hv, rfl, rfl, rfl, by simp⟩
  | cons x xs ih =>
    have hlen : (x :: xs).length = xs.length + 1 := rfl
    rw [hlen] at hc
    obtain ⟨u, hu, hvu, hsu, hcu, hlu, hcont⟩ := PushBack_room_ok v x hv (by omega) hr
    obtain ⟨w, hw, hvw, hsw, hcw, hlw, hcontw⟩ :=
      ih u hvu (by rw [hsu, hcu]; omega) (by rw [hcu]; exact hr)
    refine ⟨w, ?_, hvw, ?_, ?_, ?_, ?_⟩
    · simp only [PushBack_seq, hu]
      exact hw
    · rw [hsw, hsu, hlen]
      omega
    · rw [hcw, hcu]
    · rw [hlw, hlu]
    · rw [hcontw, hcont]
      simp

/-- C17. For a capacity `c` that is a `size_t` value and any `k <= c` values,
`Reserve(c)` on the empty vector followed by `k` calls of `PushBack` all return;
the capacity is `c` after the reservation and still `c` after the pushes, the
block is the one made by `Reserve` (same number of cells, no reallocation), and
the size is `k`. -/
theorem Reserve_then_PushBack_seq [FreshBlock α] (c : Nat) (xs : List α)
    (hc : c < SIZE_T_RANGE) (hk : xs.length ≤ c) :
    ∃ v w, Reserve (ctor_default : SimpleVector α) c = .ok v ∧
      GetCapacity v = c ∧ GetSize v = 0 ∧
      PushBack_seq v xs = .ok w ∧ GetCapacity w = c ∧ GetSize w = xs.length ∧
      w.raw_vector_.length = v.raw_vector_.length ∧ contents w = xs := by
  have key : ∃ v : SimpleVector α, Reserve (ctor_default : SimpleVector α) c = .ok v ∧
      Valid v ∧ v.capacity_ = c ∧ v.size_ = 0 ∧ contents v = [] := by
    by_cases h0 : c > 0
    · obtain ⟨v, hv, hval, hs, hcap, _, hcont⟩ :=
        Reserve_grow_ok (ctor_default : SimpleVector α) c Valid_ctor_default h0
      exact ⟨v, hv, hval, hcap, hs, by rw [hcont]; rfl⟩
    · have hz : c = 0 := by omega
      subst hz
      exact ⟨ctor_default, rfl, Valid_ctor_default, rfl, rfl, rfl⟩
  obtain ⟨v, hv, hval, hcap, hs, hcont⟩ := key
  obtain ⟨w, hw, _, hsw, hcw, hlw, hcontw⟩ :=
    PushBack_seq_room_ok xs v hval (by rw [hs, hcap]; omega) (by rw [hcap]; exact hc)
  refine ⟨v, w, hv, hcap, hs, hw, ?_, ?_, hlw, ?_⟩
  · show w.capacity_ = c
    rw [hcw, hcap]
  · show w.size_ = xs.length
    rw [hsw, hs]
    omega
  · rw [hcontw, hcont]
    rfl

/-- Witness for C17: the instance of the specification, `Reserve(10)` then five
pushes. -/
theorem Reserve_then_PushBack_seq_witness :
    10 < SIZE_T_RANGE ∧ ([1, 2, 3, 4, 5] : List Int).length ≤ 10 ∧
    ∃ v w, Reserve (ctor_default : SimpleVector Int) 10 = .ok v ∧
      GetCapacity v = 10 ∧ GetSize v = 0 ∧
      PushBack_seq v [1, 2, 3, 4, 5] = .ok w ∧ GetCapacity w = 10 ∧
      GetSize w = ([1, 2, 3, 4, 5] : List Int).length ∧
      w.raw_vector_.length = v.raw_vector_.length ∧ contents w = [1, 2, 3, 4, 5] :=
  ⟨by decide, by decide, Reserve_then_PushBack_seq 10 [1, 2, 3, 4, 5] (by decide) (by decide)⟩

theorem Reachable_sample_123_room : Reachable sample_123_room := by
  have h0 : Reachable (ctor_default : SimpleVector Int) := Reachable.by_default
  have h1 : Reachable ({ raw_vector_ := [1], size_ := 1, capacity_ := 1 } : SimpleVector Int) :=
    Reachable.push_back ctor_default 1 _ h0 (by decide)
  have h2 : Reachable ({ raw_vector_ := [1, 2], size_ := 2, capacity_ := 2 } : SimpleVector Int) :=
    Reachable.push_back _ 2 _ h1 (by decide)
  exact Reachable.push_back _ 3 _ h2 (by decide)

/-- C18 (defect in the code). After `PushBack` of 1, 2, 3 into an empty vector
(size 3, capacity 4), copy construction yields a reachable vector whose block
has 3 cells while its recorded capacity is 4; its size is below its capacity, so
`PushBack` takes the in-place branch and writes cell 3, outside the block. -/
theorem Reachable_capacity_exceeds_block :
    ∃ v : SimpleVector Int, Reachable v ∧ ctor_copy sample_123_room = .ok v ∧
      v.raw_vector_.length = 3 ∧ GetCapacity v = 4 ∧ GetSize v < GetCapacity v ∧
      ¬ (GetCapacity v ≤ v.raw_vector_.length) ∧
      PushBack v 4 = .error Fault.out_of_bounds :=
  ⟨{ raw_vector_ := [1, 2, 3], size_ := 3, capacity_ := 4 },
    Reachable.by_copy sample_123_room _ Reachable_sample_123_room (by decide),
    by decide, by decide, by decide, by decide, by decide, by decide⟩


theorem ctor_fill_le [FreshBlock α] (n : Nat) (x : α) (w : SimpleVector α)
    (h : ctor_fill n x = .ok w) : w.size_ ≤ w.capacity_ := by
  simp only [ctor_fill] at h
  split at h
  · cases h
    exact Nat.le_refl _
  · cases h

theorem ctor_init_le [FreshBlock α] (xs : List α) (w : SimpleVector α)
    (h : ctor_init xs = .ok w) : w.size_ ≤ w.capacity_ := by
  simp only [ctor_init] at h
  split at h
  · cases h
    exact Nat.le_refl _
  · cases h

theorem Reserve_le [FreshBlock α] (a : SimpleVector α) (n : Nat) (w : SimpleVector α)
    (ha : a.size_ ≤ a.capacity_) (h : Reserve a n = .ok w) : w.size_ ≤ w.capacity_ := by
  simp only [Reserve] at h
  split at h
  · split at h
    · cases h
      show a.size_ ≤ n
      omega
    · cases h
  · cases h
    exact ha

theorem ctor_copy_le [FreshBlock α] (a w : SimpleVector α)
    (ha : a.size_ ≤ a.capacity_) (h : ctor_copy a = .ok w) : w.size_ ≤ w.capacity_ := by
  simp only [ctor_copy] at h
  split at h
  · cases h
    exact ha
  · cases h

theorem operator_assign_le [FreshBlock α] (a rhs w : SimpleVector α)
    (ha : a.size_ ≤ a.capacity_) (h : operator_assign a rhs = .ok w) :
    w.size_ ≤ w.capacity_ := by
  simp only [operator_assign] at h
  split at h
  · split at h
    · cases h
      exact Nat.le_refl _
    · cases h
  · cases h
    exact ha

theorem assign_copy_le [FreshBlock α] (a b : SimpleVector α)
    (p : SimpleVector α × SimpleVector α)
    (ha : a.size_ ≤ a.capacity_) (h : assign_copy a b = .ok p) :
    p.1.size_ ≤ p.1.capacity_ := by
  simp only [assign_copy] at h
  split at h
  · split at h
    · rename_i a1 h1
      cases h
      exact operator_assign_le a _ a1 ha h1
    · cases h
  · cases h

theorem assign_move_le [FreshBlock α] (a b : SimpleVector α)
    (p : SimpleVector α × SimpleVector α)
    (ha : a.size_ ≤ a.capacity_) (h : assign_move a b = .ok p) :
    p.1.size_ ≤ p.1.capacity_ ∧ p.2.size_ ≤ p.2.capacity_ := by
  simp only [assign_move] at h
  split at h
  · rename_i a1 h1
    cases h
    exact ⟨operator_assign_le a _ a1 ha h1, Nat.le_refl _⟩
  · cases h

theorem Resize_le [Inhabited α] [FreshBlock α] (a : SimpleVector α) (n : Nat) (w : SimpleVector α)
    (h : Resize a n = .ok w) : w.size_ ≤ w.capacity_ := by
  simp only [Resize] at h
  split at h
  · rename_i hn
    split at h
    · cases h
      exact hn
    · split at h
      · cases h
        exact hn
      · cases h
  · split at h
    · cases h
      exact Nat.le_refl _
    · cases h

theorem std_copy_inv (src : List α) (first last : Nat) (dst : List α) (d : Nat)
    (r : List α) (h : std_copy src first last dst d = .ok r) :
    r.length = dst.length ∧ d + (last - first) ≤ dst.length := by
  simp only [std_copy] at h
  split at h
  · rename_i hg
    cases h
    exact ⟨copy_loop_length _ _ _ _ _, hg.2.2⟩
  · cases h

theorem subscript_assign_inv (t : SimpleVector α) (i : Nat) (x : α) (u : SimpleVector α)
    (h : subscript_assign t i x = .ok u) :
    i < t.raw_vector_.length ∧ u.size_ = t.size_ ∧ u.capacity_ = t.capacity_ ∧
      u.raw_vector_.length = t.raw_vector_.length := by
  simp only [subscript_assign, ArrayPtr.store] at h
  split at h
  · split at h
    · rename_i raw hst
      split at hst
      · rename_i hlt
        cases hst
        cases h
        exact ⟨hlt, rfl, rfl, List.length_set _ _ _⟩
      · cases hst
    · cases h
  · cases h

theorem PushBack_le [FreshBlock α] (a : SimpleVector α) (x : α) (w : SimpleVector α)
    (h : PushBack a x = .ok w) : w.size_ ≤ w.capacity_ := by
  simp only [PushBack, ctor_size, swap] at h
  split at h
  · rename_i hc
    split at h
    · cases h
      show (a.size_ + 1) % SIZE_T_RANGE ≤ a.capacity_
      have := Nat.mod_le (a.size_ + 1) SIZE_T_RANGE
      omega
    · cases h
  · split at h
    · rename_i raw hcopy
      split at h
      · rename_i temp hassign
        cases h
        obtain ⟨hl, _⟩ := std_copy_inv _ _ _ _ _ _ hcopy
        obtain ⟨hi, hs, hcap, _⟩ := subscript_assign_inv _ _ _ _ hassign
        rw [hs, hcap]
        show (a.size_ + 1) % SIZE_T_RANGE ≤ max (a.size_ * 2 % SIZE_T_RANGE) 1
        have hi2 : a.size_ < raw.length := hi
        rw [hl, ArrayPtr.length_alloc] at hi2
        have := Nat.mod_le (a.size_ + 1) SIZE_T_RANGE
        omega
      · cases h
    · cases h

theorem PopBack_le (a w : SimpleVector α) (ha : a.size_ ≤ a.capacity_)
    (h : PopBack a = .ok w) : w.size_ ≤ w.capacity_ := by
  simp only [PopBack] at h
  split at h
  · cases h
    show a.size_ - 1 ≤ a.capacity_
    omega
  · cases h

theorem Insert_le [FreshBlock α] (a : SimpleVector α) (i : Nat) (x : α) (w : SimpleVector α)
    (j : Nat) (h : Insert a i x = .ok (w, j)) : w.size_ ≤ w.capacity_ := by
  simp only [Insert, ctor_size, swap] at h
  split at h
  · split at h
    · rename_i hc
      split at h
      · split at h
        · cases h
          show (a.size_ + 1) % SIZE_T_RANGE ≤ a.capacity_
          have := Nat.mod_le (a.size_ + 1) SIZE_T_RANGE
          omega
        · cases h
      · cases h
    · split at h
      · split at h
        · rename_i raw1 hcopy1 _ temp hassign
          split at h
          · rename_i raw2 hcopy2
            cases h
            obtain ⟨hl1, _⟩ := std_copy_inv _ _ _ _ _ _ hcopy1
            obtain ⟨_, hs, hcap, hl2⟩ := subscript_assign_inv _ _ _ _ hassign
            obtain ⟨_, hb⟩ := std_copy_inv _ _ _ _ _ _ hcopy2
            show temp.size_ ≤ temp.capacity_
            rw [hs, hcap]
            show (a.size_ + 1) % SIZE_T_RANGE ≤ max (a.size_ * 2 % SIZE_T_RANGE) 1
            rw [hl2] at hb
            have hb2 : i + 1 + (a.size_ - i) ≤ raw1.length := hb
            rw [hl1, ArrayPtr.length_alloc] at hb2
            have := Nat.mod_le (a.size_ + 1) SIZE_T_RANGE
            omega
          · cases h
        · cases h
      · cases h
  · cases h

theorem Erase_le (a : SimpleVector α) (i : Nat) (w : SimpleVector α) (j : Nat)
    (ha : a.size_ ≤ a.capacity_) (h : Erase a i = .ok (w, j)) : w.size_ ≤ w.capacity_ := by
  simp only [Erase] at h
  split at h
  · split at h
    · cases h
      show a.size_ - 1 ≤ a.capacity_
      omega
    · cases h
  · cases h

theorem Reachable_le [Inhabited α] [FreshBlock α] (v : SimpleVector α) (h : Reachable v) :
    v.size_ ≤ v.capacity_ := by
  induction h with
  | by_default => exact Nat.le_refl _
  | by_size n => exact Nat.le_refl _
  | by_fill n x w hw => exact ctor_fill_le n x w hw
  | by_init xs w hw => exact ctor_init_le xs w hw
  | by_reserve obj w hw => exact Reserve_le ctor_default _ w (Nat.le_refl _) hw
  | by_copy a w _ hw ih => exact ctor_copy_le a w ih hw
  | by_move a _ _ => exact Nat.le_refl _
  | moved_from a _ _ => exact Nat.le_refl _
  | assign_copy_left a b p _ _ hp iha _ => exact assign_copy_le a b p iha hp
  | assign_move_left a b p _ _ hp iha _ => exact (assign_move_le a b p iha hp).1
  | assign_move_right a b p _ _ hp iha _ => exact (assign_move_le a b p iha hp).2
  | swap_left a b _ _ _ ihb => exact ihb
  | swap_right a b _ _ iha _ => exact iha
  | clear a _ _ => exact Nat.zero_le _
  | resize a n w _ hw _ => exact Resize_le a n w hw
  | reserve a n w _ hw ih => exact Reserve_le a n w ih hw
  | push_back a x w _ hw _ => exact PushBack_le a x w hw
  | pop_back a w _ hw ih => exact PopBack_le a w ih hw
  | insert a i x w j _ hw _ => exact Insert_le a i x w j hw
  | erase a i w j _ hw ih => exact Erase_le a i w j ih hw


end SimpleVector

/-! ## Comparison operators -/

theorem equal_loop_iff {α : Type} [DecidableEq α] (xs ys : List α)
    (h : xs.length = ys.length) : equal_loop xs ys = true ↔ xs = ys := by
  induction xs generalizing ys with
  | nil =>
    cases ys with
    | nil => simp [equal_loop]
    | cons y ys => simp at h
  | cons x xs ih =>
    cases ys with
    | nil => simp at h
    | cons y ys =>
      have hl : xs.length = ys.length := by
        simp only [List.length_cons] at h
        omega
      unfold equal_loop
      by_cases hxy : x = y
      · rw [if_pos hxy, ih ys hl]
        subst hxy
        simp
      · rw [if_neg hxy]
        simp [hxy]

namespace SimpleVector

variable {α : Type}

theorem lex_less_nil_nil [LT α] : ¬ lex_less ([] : List α) [] := by
  intro h
  rcases h with ⟨h1, _⟩ | ⟨k, x, y, hx, _⟩
  · simp at h1
  · simp at hx

theorem lex_less_nil_cons [LT α] (y : α) (ys : List α) : lex_less [] (y :: ys) := by
  left
  constructor
  · simp
  · intro i hi
    simp at hi

theorem lex_less_cons_nil [LT α] (x : α) (xs : List α) : ¬ lex_less (x :: xs) [] := by
  intro h
  rcases h with ⟨h1, _⟩ | ⟨k, x1, y1, _, hy, _⟩
  · simp at h1
  · simp at hy

theorem lex_less_cons_lt [LT α] (x y : α) (xs ys : List α) (h : x < y) :
    lex_less (x :: xs) (y :: ys) := by
  right
  refine ⟨0, x, y, by simp, by simp, h, ?_⟩
  intro j hj
  omega

theorem lex_less_cons_ne [Preorder α] (x y : α) (xs ys : List α) (hne : x ≠ y)
    (h : lex_less (x :: xs) (y :: ys)) : x < y := by
  rcases h with ⟨_, h2⟩ | ⟨k, x1, y1, hx, hy, hlt, hj⟩
  · have := h2 0 (by simp)
    simp at this
    exact absurd this hne
  · cases k with
    | zero =>
      simp at hx hy
      rw [← hx, ← hy] at hlt
      exact hlt
    | succ k =>
      have := hj 0 (by omega)
      simp at this
      exact absurd this hne

theorem lex_less_cons_same [Preorder α] (x : α) (xs ys : List α) :
    lex_less (x :: xs) (x :: ys) ↔ lex_less xs ys := by
  constructor
  · intro h
    rcases h with ⟨h1, h2⟩ | ⟨k, x1, y1, hx, hy, hlt, hj⟩
    · left
      constructor
      · simp only [List.length_cons] at h1
        omega
      · intro i hi
        have := h2 (i + 1) (by simp only [List.length_cons]; omega)
        simpa using this
    · cases k with
      | zero =>
        simp at hx hy
        rw [← hx, ← hy] at hlt
        exact absurd hlt (lt_irrefl x)
      | succ k =>
        right
        refine ⟨k, x1, y1, by simpa using hx, by simpa using hy, hlt, ?_⟩
        intro j hj2
        have := hj (j + 1) (by omega)
        simpa using this
  · intro h
    rcases h with ⟨h1, h2⟩ | ⟨k, x1, y1, hx, hy, hlt, hj⟩
    · left
      constructor
      · simp only [List.length_cons]
        omega
      · intro i hi
        cases i with
        | zero => simp
        | succ i =>
          simp only [List.length_cons] at hi
          have := h2 i (by omega)
          simpa using this
    · right
      refine ⟨k + 1, x1, y1, by simpa using hx, by simpa using hy, hlt, ?_⟩
      intro j hj2
      cases j with
      | zero => simp
      | succ j =>
        have := hj j (by omega)
        simpa using this

theorem lexicographical_compare_loop_iff [LinearOrder α] (xs ys : List α) :
    lexicographical_compare_loop xs ys = true ↔ lex_less xs ys := by
  induction xs generalizing ys with
  | nil =>
    cases ys with
    | nil =>
      simp only [lexicographical_compare_loop]
      constructor
      · intro h
        cases h
      · intro h
        exact absurd h lex_less_nil_nil
    | cons y ys =>
      simp only [lexicographical_compare_loop]
      exact ⟨fun _ => lex_less_nil_cons y ys, fun _ => trivial⟩
  | cons x xs ih =>
    cases ys with
    | nil =>
      simp only [lexicographical_compare_loop]
      constructor
      · intro h
        cases h
      · intro h
        exact absurd h (lex_less_cons_nil x xs)
    | cons y ys =>
      unfold lexicographical_compare_loop
      by_cases h1 : x < y
      · rw [if_pos h1]
        exact ⟨fun _ => lex_less_cons_lt x y xs ys h1, fun _ => rfl⟩
      · rw [if_neg h1]
        by_cases h2 : y < x
        · rw [if_pos h2]
          constructor
          · intro h
            cases h
          · intro h
            have hne : x ≠ y := fun e => by
              rw [e] at h2
              exact lt_irrefl y h2
            exact absurd (lex_less_cons_ne x y xs ys hne h) h1
        · rw [if_neg h2]
          have hxy : x = y := le_antisymm (not_lt.mp h2) (not_lt.mp h1)
          subst hxy
          rw [ih ys, lex_less_cons_same]


theorem subscript_in_block (v : SimpleVector α) (i : Nat) (hi : i < v.size_)
    (hl : i < v.raw_vector_.length) : subscript v i = .ok v.raw_vector_[i] :=
  subscript_ok v i _ hi (List.getElem?_eq_getElem hl)

theorem contents_eq_iff (a b : SimpleVector α) (ha : Valid a) (hb : Valid b) :
    contents a = contents b ↔
      (a.size_ = b.size_ ∧ ∀ i, i < a.size_ → subscript a i = subscript b i) := by
  have hla : (contents a).length = a.size_ := contents_length a ha
  have hlb : (contents b).length = b.size_ := contents_length b hb
  constructor
  · intro h
    have hs : a.size_ = b.size_ := by rw [← hla, ← hlb, h]
    refine ⟨hs, ?_⟩
    intro i hi
    exact subscript_congr a b i hi (by omega) (by rw [h])
  · intro h
    obtain ⟨hs, he⟩ := h
    apply List.ext_getElem?
    intro j
    rw [contents_get, contents_get]
    by_cases hj : j < a.size_
    · have hjb : j < b.size_ := by omega
      have hja : j < a.raw_vector_.length := by
        have := ha.1
        have := ha.2
        omega
      have hjb2 : j < b.raw_vector_.length := by
        have := hb.1
        have := hb.2
        omega
      have e := he j hj
      rw [subscript_in_block a j hj hja, subscript_in_block b j hjb hjb2] at e
      rw [if_pos hj, if_pos hjb, List.getElem?_eq_getElem hja, List.getElem?_eq_getElem hjb2]
      injection e with e1
      rw [e1]
    · have hjb : ¬ j < b.size_ := by omega
      rw [if_neg hj, if_neg hjb]

theorem operator_eq_decide [DecidableEq α] (a b : SimpleVector α) (ha : Valid a)
    (hb : Valid b) : operator_eq a b = .ok (decide (contents a = contents b)) := by
  have hla : (contents a).length = a.size_ := contents_length a ha
  have hlb : (contents b).length = b.size_ := contents_length b hb
  have hga : a.size_ ≤ a.raw_vector_.length := by
    have := ha.1
    have := ha.2
    omega
  have hgb : b.size_ ≤ b.raw_vector_.length := by
    have := hb.1
    have := hb.2
    omega
  simp only [operator_eq, std_equal, if_pos (And.intro hga hgb)]
  by_cases hs : a.size_ = b.size_
  · have hn : ¬ (a.size_ ≠ b.size_) := fun h => h hs
    rw [if_neg hn]
    congr 1
    rw [Bool.eq_iff_iff, decide_eq_true_iff]
    exact equal_loop_iff _ _ (by
      show (contents a).length = (contents b).length
      rw [hla, hlb, hs])
  · rw [if_pos hs]
    congr 1
    symm
    rw [decide_eq_false_iff_not]
    intro h
    apply hs
    rw [← hla, ← hlb, h]

/-- C14. For vectors satisfying the representation invariant, `a == b` returns, and
it is true exactly when the sizes are equal and `a[i] == b[i]` for every
`i < size`; `a != b` is its negation; and any other pair of such vectors with
the same element sequences, whatever their capacities and whatever their spare
slots hold, gives the same answer. -/
theorem operator_eq_spec [DecidableEq α] (a b : SimpleVector α) (ha : Valid a)
    (hb : Valid b) :
    ∃ r, operator_eq a b = .ok r ∧
      (r = true ↔
        (GetSize a = GetSize b ∧ ∀ i, i < GetSize a → subscript a i = subscript b i)) ∧
      operator_ne a b = .ok (!r) ∧
      (∀ a2 b2 : SimpleVector α, Valid a2 → Valid b2 → contents a2 = contents a →
        contents b2 = contents b → operator_eq a2 b2 = .ok r) := by
  refine ⟨decide (contents a = contents b), operator_eq_decide a b ha hb, ?_, ?_, ?_⟩
  · rw [decide_eq_true_iff]
    exact contents_eq_iff a b ha hb
  · simp only [operator_ne, operator_eq_decide a b ha hb]
    rfl
  · intro a2 b2 ha2 hb2 h1 h2
    rw [operator_eq_decide a2 b2 ha2 hb2, h1, h2]

/-- Witness for C14: `{1, 2}` with capacity 2 against `{1, 2}` with capacity 4 and
stale spare slots (equal), and `{1, 2}` against `{1, 2, 3}` (not equal). -/
theorem operator_eq_spec_witness :
    (Valid sample_full ∧ Valid sample_room ∧ operator_eq sample_full sample_room = .ok true ∧
      ∃ r, operator_eq sample_full sample_room = .ok r ∧
        (r = true ↔ (GetSize sample_full = GetSize sample_room ∧
          ∀ i, i < GetSize sample_full → subscript sample_full i = subscript sample_room i)) ∧
        operator_ne sample_full sample_room = .ok (!r) ∧
        (∀ a2 b2 : SimpleVector Int, Valid a2 → Valid b2 → contents a2 = contents sample_full →
          contents b2 = contents sample_room → operator_eq a2 b2 = .ok r)) ∧
    (Valid sample_full ∧ Valid sample_123_room ∧
      operator_eq sample_full sample_123_room = .ok false ∧
      ∃ r, operator_eq sample_full sample_123_room = .ok r ∧
        (r = true ↔ (GetSize sample_full = GetSize sample_123_room ∧
          ∀ i, i < GetSize sample_full →
            subscript sample_full i = subscript sample_123_room i)) ∧
        operator_ne sample_full sample_123_room = .ok (!r) ∧
        (∀ a2 b2 : SimpleVector Int, Valid a2 → Valid b2 → contents a2 = contents sample_full →
          contents b2 = contents sample_123_room → operator_eq a2 b2 = .ok r)) :=
  ⟨⟨by decide, by decide, by decide,
      operator_eq_spec sample_full sample_room (by decide) (by decide)⟩,
   ⟨by decide, by decide, by decide,
      operator_eq_spec sample_full sample_123_room (by decide) (by decide)⟩⟩

theorem operator_lt_loop [LinearOrder α] (a b : SimpleVector α) (ha : Valid a)
    (hb : Valid b) :
    operator_lt a b = .ok (lexicographical_compare_loop (contents a) (contents b)) := by
  have hga : a.size_ ≤ a.raw_vector_.length := by
    have := ha.1
    have := ha.2
    omega
  have hgb : b.size_ ≤ b.raw_vector_.length := by
    have := hb.1
    have := hb.2
    omega
  simp only [operator_lt, std_lexicographical_compare, if_pos (And.intro hga hgb)]
  rfl

/-- C15. For vectors over a linearly ordered element type that satisfy the
representation invariant, `a < b` returns, and it is true exactly when the
element sequence of `a` is lexicographically less than that of `b` (a proper
prefix, or the smaller element at the first index where they differ); and
`a > b`, `a <= b`, `a >= b` are `b < a`, `!(b < a)`, `!(a < b)`. -/
theorem operator_lt_spec [LinearOrder α] (a b : SimpleVector α) (ha : Valid a)
    (hb : Valid b) :
    ∃ r s, operator_lt a b = .ok r ∧ operator_lt b a = .ok s ∧
      (r = true ↔ lex_less (contents a) (contents b)) ∧
      (s = true ↔ lex_less (contents b) (contents a)) ∧
      operator_gt a b = .ok s ∧ operator_le a b = .ok (!s) ∧ operator_ge a b = .ok (!r) := by
  refine ⟨lexicographical_compare_loop (contents a) (contents b),
    lexicographical_compare_loop (contents b) (contents a),
    operator_lt_loop a b ha hb, operator_lt_loop b a hb ha,
    lexicographical_compare_loop_iff _ _, lexicographical_compare_loop_iff _ _, ?_, ?_, ?_⟩
  · simp only [operator_gt, operator_lt_loop b a hb ha]
  · simp only [operator_le, operator_lt_loop b a hb ha]
    rfl
  · simp only [operator_ge, operator_lt_loop a b ha hb]
    rfl

/-- Witness for C15: the two instances of the specification, `{1, 2} < {1, 2, 3}`
and `{1, 3} > {1, 2, 9}`. -/
theorem operator_lt_spec_witness :
    (Valid sample_full ∧ Valid sample_123_full ∧
      operator_lt sample_full sample_123_full = .ok true ∧
      ∃ r s, operator_lt sample_full sample_123_full = .ok r ∧
        operator_lt sample_123_full sample_full = .ok s ∧
        (r = true ↔ lex_less (contents sample_full) (contents sample_123_full)) ∧
        (s = true ↔ lex_less (contents sample_123_full) (contents sample_full)) ∧
        operator_gt sample_full sample_123_full = .ok s ∧
        operator_le sample_full sample_123_full = .ok (!s) ∧
        operator_ge sample_full sample_123_full = .ok (!r)) ∧
    (Valid sample_13 ∧ Valid sample_129 ∧ operator_gt sample_13 sample_129 = .ok true ∧
      ∃ r s, operator_lt sample_13 sample_129 = .ok r ∧
        operator_lt sample_129 sample_13 = .ok s ∧
        (r = true ↔ lex_less (contents sample_13) (contents sample_129)) ∧
        (s = true ↔ lex_less (contents sample_129) (contents sample_13)) ∧
        operator_gt sample_13 sample_129 = .ok s ∧
        operator_le sample_13 sample_129 = .ok (!s) ∧
        operator_ge sample_13 sample_129 = .ok (!r)) :=
  ⟨⟨by decide, by decide, by decide,
      operator_lt_spec sample_full sample_123_full (by decide) (by decide)⟩,
   ⟨by decide, by decide, by decide,
      operator_lt_spec sample_13 sample_129 (by decide) (by decide)⟩⟩


theorem ctor_fill_ok [FreshBlock α] (n : Nat) (x : α) :
    ∃ w, ctor_fill n x = .ok w ∧ w.size_ = n ∧ w.capacity_ = n := by
  refine ⟨{ raw_vector_ := fill_loop n 0 x (ArrayPtr.alloc n), size_ := n,
            capacity_ := n }, ?_, rfl, rfl⟩
  simp only [ctor_fill]
  rw [std_fill_ok _ _ _ _ (Nat.zero_le _) (by simp only [ArrayPtr.length_alloc]; omega)]
  rfl

theorem ctor_init_ok [FreshBlock α] (xs : List α) :
    ∃ w, ctor_init xs = .ok w ∧ w.size_ = xs.length ∧ w.capacity_ = xs.length := by
  refine ⟨{ raw_vector_ := copy_loop xs xs.length 0 (ArrayPtr.alloc xs.length) 0,
            size_ := xs.length, capacity_ := xs.length }, ?_, rfl, rfl⟩
  simp only [ctor_init]
  rw [std_copy_ok _ _ _ _ _ (Nat.zero_le _) (Nat.le_refl _)
    (by simp only [ArrayPtr.length_alloc]; omega)]
  rfl

theorem ctor_reserve_ok [FreshBlock α] (obj : ReserveProxyObj) :
    ∃ w : SimpleVector α, ctor_reserve obj = .ok w ∧ w.size_ = 0 ∧
      w.capacity_ = obj.capacity_to_reserve_ := by
  by_cases hc : obj.capacity_to_reserve_ > 0
  · obtain ⟨w, hw, _, hsw, hcw, _, _⟩ :=
      Reserve_grow_ok (ctor_default : SimpleVector α) obj.capacity_to_reserve_
        Valid_ctor_default hc
    exact ⟨w, hw, hsw, hcw⟩
  · have h0 : obj.capacity_to_reserve_ = 0 := by omega
    have hc2 : ¬ obj.capacity_to_reserve_ > (ctor_default : SimpleVector α).capacity_ := hc
    refine ⟨ctor_default, ?_, rfl, h0.symm⟩
    simp only [ctor_reserve, Reserve, if_neg hc2]

theorem assign_copy_snd [FreshBlock α] (a b : SimpleVector α)
    (p : SimpleVector α × SimpleVector α) (h : assign_copy a b = .ok p) : p.2 = b := by
  simp only [assign_copy] at h
  split at h
  · split at h
    · cases h
      rfl
    · cases h
  · cases h

/-- C19. The predicate `size <= capacity` holds for every vector reachable through
the public interface.  It holds after each constructor (those that allocate
and fill are shown to return), and each mutating operation that returns
normally (asserts hold, no access outside a block) hands it on from the vectors
it is applied to: assignment (from an lvalue and from an rvalue), `swap`,
`Clear`, `Resize`, `Reserve`, `PushBack`, `PopBack`, `Insert`, `Erase`. -/
theorem size_le_capacity_invariant [Inhabited α] [FreshBlock α] :
    (∀ v : SimpleVector α, Reachable v → SizeWithinCapacity v) ∧
    SizeWithinCapacity (ctor_default : SimpleVector α) ∧
    (∀ n, SizeWithinCapacity (ctor_size n : SimpleVector α)) ∧
    (∀ n (x : α), ∃ w, ctor_fill n x = .ok w ∧ SizeWithinCapacity w) ∧
    (∀ xs : List α, ∃ w, ctor_init xs = .ok w ∧ SizeWithinCapacity w) ∧
    (∀ obj, ∃ w : SimpleVector α, ctor_reserve obj = .ok w ∧ SizeWithinCapacity w) ∧
    (∀ a w : SimpleVector α, SizeWithinCapacity a → ctor_copy a = .ok w →
      SizeWithinCapacity w) ∧
    (∀ a : SimpleVector α,
      SizeWithinCapacity (ctor_move a).1 ∧ SizeWithinCapacity (ctor_move a).2) ∧
    (∀ (a b : SimpleVector α) p, SizeWithinCapacity a → SizeWithinCapacity b →
      assign_copy a b = .ok p → SizeWithinCapacity p.1 ∧ SizeWithinCapacity p.2) ∧
    (∀ (a b : SimpleVector α) p, SizeWithinCapacity a → SizeWithinCapacity b →
      assign_move a b = .ok p → SizeWithinCapacity p.1 ∧ SizeWithinCapacity p.2) ∧
    (∀ a b : SimpleVector α, SizeWithinCapacity a → SizeWithinCapacity b →
      SizeWithinCapacity (swap a b).1 ∧ SizeWithinCapacity (swap a b).2) ∧
    (∀ a : SimpleVector α, SizeWithinCapacity (Clear a)) ∧
    (∀ (a : SimpleVector α) n w, SizeWithinCapacity a → Resize a n = .ok w →
      SizeWithinCapacity w) ∧
    (∀ (a : SimpleVector α) n w, SizeWithinCapacity a → Reserve a n = .ok w →
      SizeWithinCapacity w) ∧
    (∀ (a : SimpleVector α) x w, SizeWithinCapacity a → PushBack a x = .ok w →
      SizeWithinCapacity w) ∧
    (∀ a w : SimpleVector α, SizeWithinCapacity a → PopBack a = .ok w →
      SizeWithinCapacity w) ∧
    (∀ (a : SimpleVector α) i x w j, SizeWithinCapacity a → Insert a i x = .ok (w, j) →
      SizeWithinCapacity w) ∧
    (∀ (a : SimpleVector α) i w j, SizeWithinCapacity a → Erase a i = .ok (w, j) →
      SizeWithinCapacity w) := by
  refine ⟨Reachable_le, Nat.le_refl _, fun _ => Nat.le_refl _, ?_, ?_, ?_, ?_, ?_, ?_, ?_, ?_,
    ?_, ?_, ?_, ?_, ?_, ?_, ?_⟩
  · intro n x
    obtain ⟨w, hw, hs, hc⟩ := ctor_fill_ok n x
    exact ⟨w, hw, ctor_fill_le n x w hw⟩
  · intro xs
    obtain ⟨w, hw, hs, hc⟩ := ctor_init_ok xs
    exact ⟨w, hw, ctor_init_le xs w hw⟩
  · intro obj
    obtain ⟨w, hw, hs, hc⟩ := @ctor_reserve_ok α _ obj
    exact ⟨w, hw, Reserve_le ctor_default _ w (Nat.le_refl _) hw⟩
  · intro a w ha hw
    exact ctor_copy_le a w ha hw
  · intro a
    exact ⟨Nat.le_refl _, Nat.le_refl _⟩
  · intro a b p ha hb hp
    refine ⟨assign_copy_le a b p ha hp, ?_⟩
    rw [assign_copy_snd a b p hp]
    exact hb
  · intro a b p ha _ hp
    exact assign_move_le a b p ha hp
  · intro a b ha hb
    exact ⟨hb, ha⟩
  · intro a
    exact Nat.zero_le _
  · intro a n w _ hw
    exact Resize_le a n w hw
  · intro a n w ha hw
    exact Reserve_le a n w ha hw
  · intro a x w _ hw
    exact PushBack_le a x w hw
  · intro a w ha hw
    exact PopBack_le a w ha hw
  · intro a i x w j _ hw
    exact Insert_le a i x w j hw
  · intro a i w j ha hw
    exact Erase_le a i w j ha hw

/-- Witness for C19: the vector left by pushing 1, 2, 3 into an empty vector is
reachable, and `PushBack` on it returns. -/
theorem size_le_capacity_invariant_witness :
    Reachable sample_123_room ∧ SizeWithinCapacity sample_123_room ∧
    PushBack sample_123_room 4 = .ok { raw_vector_ := [1, 2, 3, 4], size_ := 4, capacity_ := 4 } ∧
    SizeWithinCapacity
      ({ raw_vector_ := [1, 2, 3, 4], size_ := 4, capacity_ := 4 } : SimpleVector Int) :=
  ⟨Reachable_sample_123_room,
    (@size_le_capacity_invariant Int _).1 sample_123_room Reachable_sample_123_room,
    by decide,
    (@size_le_capacity_invariant Int _).2.2.2.2.2.2.2.2.2.2.2.2.2.2.1 sample_123_room 4 _
      (by decide) (by decide)⟩

end SimpleVector

/-! ## Vectors built by the copy constructor, and cells never stored into -/

namespace SimpleVector

theorem Reachable_sample_123_copy : Reachable sample_123_copy :=
  Reachable.by_copy sample_123_room _ Reachable_sample_123_room (by decide)

/-- C2 (defects in the code). Two runs where `Resize` to a larger size does not
leave `Type{}` in the new slots.  First, `{1, 2}` of capacity 2 resized to 3
reallocates; no statement of that branch stores into the slots from the old
size on, so index 2 reads whatever the fresh block held (902 when the block
holds the stale values 900, 901, ...), not `Type{}`.  Second, on the copy of
`{1, 2, 3}` of capacity 4 (a block of 3 cells with recorded capacity 4, the
defect of C12 and C18) `Resize(4)` takes the in-place branch and fills cell 3,
outside the block. -/
theorem Resize_new_slots_at_failing_inputs :
    (@Resize Int _ stale_blocks sample_full 3
        = .ok { raw_vector_ := [1, 2, 902, 903], size_ := 4, capacity_ := 4 } ∧
      subscript ({ raw_vector_ := [1, 2, 902, 903], size_ := 4, capacity_ := 4 } :
        SimpleVector Int) 2 = .ok 902 ∧
      subscript ({ raw_vector_ := [1, 2, 902, 903], size_ := 4, capacity_ := 4 } :
        SimpleVector Int) 2 ≠ .ok default) ∧
    (ctor_copy sample_123_room = .ok sample_123_copy ∧ Reachable sample_123_copy ∧
      GetSize sample_123_copy < 4 ∧ 4 ≤ GetCapacity sample_123_copy ∧
      Resize sample_123_copy 4 = .error Fault.out_of_bounds) :=
  ⟨⟨by decide, by decide, by decide⟩,
   ⟨by decide, Reachable_sample_123_copy, by decide, by decide, by decide⟩⟩

/-- C4 (defect in the code, the one of C12 and C18). The copy of `{1, 2, 3}` of
capacity 4 has a block of 3 cells and recorded capacity 4, so its size is below
its capacity; `PushBack` and `Insert` on it take the in-place branch and write
cell 3, outside the block, instead of returning with the capacity unchanged. -/
theorem PushBack_Insert_on_copy_outside_block :
    ctor_copy sample_123_room = .ok sample_123_copy ∧ Reachable sample_123_copy ∧
    GetSize sample_123_copy < GetCapacity sample_123_copy ∧
    PushBack sample_123_copy 4 = .error Fault.out_of_bounds ∧
    Insert sample_123_copy 1 9 = .error Fault.out_of_bounds :=
  ⟨by decide, Reachable_sample_123_copy, by decide, by decide, by decide⟩

/-- C5 (defect in the code, the one of C12 and C18). On the copy of `{1, 2, 3}` of
capacity 4 (a block of 3 cells), `Insert` at `begin()`, at `begin() + 1` and at
`end()` all take the in-place branch, whose shift or store reaches cell 3,
outside the block; no vector `{.., x, ..}` of size 4 is returned. -/
theorem Insert_on_copy_outside_block :
    ctor_copy sample_123_room = .ok sample_123_copy ∧ Reachable sample_123_copy ∧
    contents sample_123_copy = [1, 2, 3] ∧
    Insert sample_123_copy 0 9 = .error Fault.out_of_bounds ∧
    Insert sample_123_copy 1 9 = .error Fault.out_of_bounds ∧
    Insert sample_123_copy 3 9 = .error Fault.out_of_bounds :=
  ⟨by decide, Reachable_sample_123_copy, by decide, by decide, by decide, by decide⟩

/-- C7 (defect in the code, the one of C12 and C18). On the copy of `{1, 2, 3}` of
capacity 4 (a block of 3 cells) the `Insert` step of the round trip already
writes outside the block, so there is no pair of results of `Insert` and `Erase`
that could restore the original sequence. -/
theorem Insert_Erase_on_copy_outside_block :
    ctor_copy sample_123_room = .ok sample_123_copy ∧ Reachable sample_123_copy ∧
    1 ≤ GetSize sample_123_copy ∧
    Insert sample_123_copy 1 9 = .error Fault.out_of_bounds ∧
    ¬ (∃ w u, Insert sample_123_copy 1 9 = .ok (w, 1) ∧ Erase w 1 = .ok (u, 1)) := by
  refine ⟨by decide, Reachable_sample_123_copy, by decide, by decide, ?_⟩
  intro h
  obtain ⟨w, u, hw, _⟩ := h
  have he : Insert sample_123_copy 1 9 = .error Fault.out_of_bounds := by decide
  rw [he] at hw
  cases hw

end SimpleVector
